import Mathlib

/-!
Verification development for the DataAirlock PII pseudonymization core
(pattern registry, detector, anonymizer, deanonymizer, mapping storage).

Texts are modelled as `List Char` (JavaScript strings; all characters that
occur in the repository's data are BMP code points, so code-unit offsets
coincide with character offsets).  JavaScript `Map`s are modelled as
association lists with `Map.get` / `Map.set` semantics, and the mutable
state of the TypeScript classes is threaded explicitly.
-/

namespace DataAirlock

/-- The character class of JavaScript `\s` (which already contains U+3000);
the source also writes `[\s　]`, which denotes the same set. -/
def isJsSpace (c : Char) : Bool :=
  c = ' ' || c = '\t' || c = '\n' || c = '\r' ||
  c.val = 11 || c.val = 12 || c.val = 0xa0 || c.val = 0x1680 ||
  (0x2000 ≤ c.val && c.val ≤ 0x200a) || c.val = 0x2028 || c.val = 0x2029 ||
  c.val = 0x202f || c.val = 0x205f || c.val = 0x3000 || c.val = 0xfeff

/-- JavaScript `\d` (no `u` flag): the ASCII digits. -/
def isAsciiDigit (c : Char) : Bool := '0' ≤ c && c ≤ '9'

/-- JavaScript `[A-Z]`. -/
def isAsciiUpper (c : Char) : Bool := 'A' ≤ c && c ≤ 'Z'

/-- ASCII lower-casing, the effect of `toLowerCase()` on the strings the
detector handles (non-ASCII characters used here are unaffected). -/
def lowerChar (c : Char) : Char :=
  if 'A' ≤ c && c ≤ 'Z' then Char.ofNat (c.toNat + 32) else c

def lowerStr (s : List Char) : List Char := s.map lowerChar

/-- `String.prototype.trim`. -/
def jsTrim (s : List Char) : List Char :=
  ((s.dropWhile isJsSpace).reverse.dropWhile isJsSpace).reverse

/-- Decidable "l₁ is a prefix of l₂" on char lists. -/
def leadsWith : List Char → List Char → Bool
  | [], _ => true
  | _ :: _, [] => false
  | a :: l₁, b :: l₂ => a = b && leadsWith l₁ l₂

/-- Decidable "pat occurs as a contiguous substring of s"
(JavaScript `String.prototype.includes`). -/
def containsSub (s pat : List Char) : Bool :=
  match s with
  | [] => leadsWith pat []
  | _ :: t => leadsWith pat s || containsSub t pat

/-- `String.prototype.split(sep)` for a single-character separator. -/
def splitOn (sep : Char) : List Char → List (List Char)
  | [] => [[]]
  | c :: t =>
    let r := splitOn sep t
    if c = sep then [] :: r
    else
      match r with
      | [] => [[c]]
      | h :: t' => (c :: h) :: t'

/-! ### JavaScript `Map` as an association list -/

/-- `Map.get`. -/
def mapGet {β : Type} (m : List (List Char × β)) (k : List Char) : Option β :=
  match m with
  | [] => none
  | (k', v) :: t => if k' = k then some v else mapGet t k

/-- `Map.set`: overwrite in place when the key exists, else append. -/
def mapSet {β : Type} (m : List (List Char × β)) (k : List Char) (v : β) :
    List (List Char × β) :=
  match m with
  | [] => [(k, v)]
  | (k', v') :: t => if k' = k then (k, v) :: t else (k', v') :: mapSet t k v

/-! ### PII data model (src/types.ts) -/

/-- `PIIType` enumeration. -/
inductive PIIType where
  | NAME | PHONE | EMAIL | ADDRESS | MYNUMBER | DOB
  deriving DecidableEq, Repr

/-- The string value of each `PIIType` enum member. -/
def tagOf : PIIType → List Char
  | .NAME => ['N', 'A', 'M', 'E']
  | .PHONE => ['P', 'H', 'O', 'N', 'E']
  | .EMAIL => ['E', 'M', 'A', 'I', 'L']
  | .ADDRESS => ['A', 'D', 'D', 'R', 'E', 'S', 'S']
  | .MYNUMBER => ['M', 'Y', 'N', 'U', 'M', 'B', 'E', 'R']
  | .DOB => ['D', 'O', 'B']

/-- `PIIMatch`. -/
structure PIIMatch where
  type : PIIType
  value : List Char
  startIndex : Nat
  endIndex : Nat
  deriving DecidableEq, Repr

/-- `MappingEntry`.  `type` is kept as the run-time string of the enum,
exactly as TypeScript stores it. -/
structure MappingEntry where
  placeholder : List Char
  original : List Char
  type : List Char
  documentUri : List Char
  createdAt : Nat
  deriving DecidableEq, Repr

/-- `SessionMapping`: forward map, reverse index and per-category counters
(all JavaScript `Map`s keyed by strings). -/
structure SessionMapping where
  entries : List (List Char × MappingEntry)
  reverseIndex : List (List Char × List Char)
  counters : List (List Char × Nat)
  deriving DecidableEq, Repr

def emptyMapping : SessionMapping := ⟨[], [], []⟩

/-- `mapping.counters.get(type) || 0`. -/
def countersGet (m : List (List Char × Nat)) (k : List Char) : Nat :=
  (mapGet m k).getD 0

/-! ### Anonymizer (src/core/anonymizer.ts) -/

/-- `normalizeNameForLookup`: for the name category, remove every
`[\s　]` character; other categories are returned unchanged. -/
def normalizeNameForLookup (value : List Char) (t : PIIType) : List Char :=
  if t = PIIType.NAME then value.filter (fun c => !(isJsSpace c)) else value

/-- `newCounter.toString().padStart(3, '0')`. -/
def padTo3 (n : Nat) : List Char :=
  let ds := Nat.toDigits 10 n
  List.replicate (3 - ds.length) '0' ++ ds

/-- ``[`${type}_${paddedCounter}`]`` — the minted placeholder text. -/
def placeholderString (t : PIIType) (n : Nat) : List Char :=
  '[' :: tagOf t ++ '_' :: padTo3 n ++ [']']

/-- `Anonymizer.generatePlaceholder`: increments the category counter and
formats the placeholder. -/
def generatePlaceholder (t : PIIType) (m : SessionMapping) :
    List Char × SessionMapping :=
  let currentCounter := countersGet m.counters (tagOf t)
  let newCounter := currentCounter + 1
  (placeholderString t newCounter,
   { m with counters := mapSet m.counters (tagOf t) newCounter })

/-- The mapping-state part of one iteration of `Anonymizer.anonymize`'s
match loop: reverse-index lookup (raw value, then name-normalized value),
minting plus reverse-index registration and entry recording on a miss.
Returns the placeholder used for the match together with the updated
mapping and accumulated new entries. -/
def anonMapStep (documentUri : List Char) (now : Nat)
    (m : SessionMapping) (es : List MappingEntry) (mt : PIIMatch) :
    List Char × SessionMapping × List MappingEntry :=
  let normalizedValue := normalizeNameForLookup mt.value mt.type
  match (mapGet m.reverseIndex mt.value).orElse
      (fun _ => mapGet m.reverseIndex normalizedValue) with
  | some placeholder => (placeholder, m, es)
  | none =>
    let (placeholder, m₁) := generatePlaceholder mt.type m
    let ri := mapSet m₁.reverseIndex mt.value placeholder
    let ri := if normalizedValue ≠ mt.value
      then mapSet ri normalizedValue placeholder else ri
    (placeholder, { m₁ with reverseIndex := ri },
     es ++ [{ placeholder := placeholder, original := mt.value,
              type := tagOf mt.type, documentUri := documentUri,
              createdAt := now }])

/-- Intermediate state of `Anonymizer.anonymize`'s loop. -/
structure AnonState where
  mapping : SessionMapping
  result : List Char
  offset : Int
  newEntries : List MappingEntry

/-- One full iteration of the match loop: mapping update plus the
position-adjusted text splice
`result.slice(0, adjustedStart) + placeholder + result.slice(adjustedStart + match.value.length)`.
(`adjustedStart` is non-negative whenever the matches respect the sorted
precondition; `Int.toNat` mirrors that regime.) -/
def anonStep (documentUri : List Char) (now : Nat)
    (st : AnonState) (mt : PIIMatch) : AnonState :=
  let (placeholder, m', es') :=
    anonMapStep documentUri now st.mapping st.newEntries mt
  let adjustedStart := (mt.startIndex + st.offset).toNat
  let result := st.result.take adjustedStart ++ placeholder ++
    st.result.drop (adjustedStart + mt.value.length)
  { mapping := m', result := result,
    offset := st.offset + placeholder.length - mt.value.length,
    newEntries := es' }

/-- The match loop of `Anonymizer.anonymize`. -/
def anonLoop (documentUri : List Char) (now : Nat) :
    List PIIMatch → AnonState → AnonState
  | [], st => st
  | mt :: ms, st => anonLoop documentUri now ms (anonStep documentUri now st mt)

/-! ### Placeholder grammar `[CATEGORY_NNN]`
The regular expression `\[(NAME|PHONE|EMAIL|ADDRESS|MYNUMBER|DOB)_\d{3}\]`
is shared by the anonymizer's YAML pass and the deanonymizer
(`applyMappingToFile`).  The six alternatives have pairwise distinct first
letters, so at most one of them can match at a given position and the
ordered alternation is an ordinary first-match lookup. -/

def singleQuote : Char := Char.ofNat 39
def openBrace : Char := Char.ofNat 123
def closeBrace : Char := Char.ofNat 125

def tagOrder : List PIIType :=
  [.NAME, .PHONE, .EMAIL, .ADDRESS, .MYNUMBER, .DOB]

def findTag (s : List Char) : Option PIIType :=
  tagOrder.find? (fun t => leadsWith (tagOf t) s)

/-- Try to read one placeholder token at the head of `s`; on success return
the token together with the remaining characters. -/
def parsePlaceholderPrefix (s : List Char) : Option (List Char × List Char) :=
  match s with
  | c :: after =>
    if c = '[' then
      match findTag after with
      | some t =>
        (match after.drop (tagOf t).length with
         | c2 :: d1 :: d2 :: d3 :: c3 :: rest =>
           if c2 = '_' && isAsciiDigit d1 && isAsciiDigit d2 && isAsciiDigit d3 &&
               c3 = ']' then
             some ('[' :: tagOf t ++ '_' :: d1 :: d2 :: d3 :: [']'], rest)
           else none
         | _ => none)
      | none => none
    else none
  | [] => none

/-- `containsPlaceholder` (the regex `.test`). -/
def containsPlaceholderB : List Char → Bool
  | [] => false
  | s@(_ :: t) => (parsePlaceholderPrefix s).isSome || containsPlaceholderB t

/-- All `[start, end)` occurrences found by the global-regex `exec` loop
(left to right, resuming after each match). -/
def findPlaceholderOccsAux : Nat → List Char → Nat → List (Nat × Nat)
  | 0, _, _ => []
  | fuel + 1, s, i =>
    match parsePlaceholderPrefix s with
    | some (ph, rest) =>
      (i, i + ph.length) :: findPlaceholderOccsAux fuel rest (i + ph.length)
    | none =>
      match s with
      | [] => []
      | _ :: t => findPlaceholderOccsAux fuel t (i + 1)

def findPlaceholderOccs (s : List Char) : List (Nat × Nat) :=
  findPlaceholderOccsAux s.length s 0

/-! ### `Anonymizer.splitYamlComment` -/

/-- The quote-tracking scan that splits off a trailing inline comment;
`prev` is the previously seen character (`none` at position 0). -/
def splitYamlCommentAux : List Char → Option Char → Bool → Bool → Bool → Bool →
    List Char → List Char × List Char
  | [], _, _, _, _, _, acc => (acc.reverse, [])
  | c :: rest, _, true, inD, sEsc, dEsc, acc =>
    if c = singleQuote && !sEsc then
      (if rest.head? = some singleQuote then
        splitYamlCommentAux rest (some c) true inD true dEsc (c :: acc)
      else splitYamlCommentAux rest (some c) false inD sEsc dEsc (c :: acc))
    else if c = singleQuote && sEsc then
      splitYamlCommentAux rest (some c) true inD false dEsc (c :: acc)
    else splitYamlCommentAux rest (some c) true inD sEsc dEsc (c :: acc)
  | c :: rest, _, false, true, sEsc, dEsc, acc =>
    if dEsc then splitYamlCommentAux rest (some c) false true sEsc false (c :: acc)
    else if c = '\\' then splitYamlCommentAux rest (some c) false true sEsc true (c :: acc)
    else if c = '"' then splitYamlCommentAux rest (some c) false false sEsc dEsc (c :: acc)
    else splitYamlCommentAux rest (some c) false true sEsc dEsc (c :: acc)
  | c :: rest, prev, false, false, sEsc, dEsc, acc =>
    if c = singleQuote then
      splitYamlCommentAux rest (some c) true false false dEsc (c :: acc)
    else if c = '"' then
      splitYamlCommentAux rest (some c) false true sEsc false (c :: acc)
    else if c = '#' && (match prev with | none => true | some p => isJsSpace p) then
      (acc.reverse, c :: rest)
    else splitYamlCommentAux rest (some c) false false sEsc dEsc (c :: acc)

def splitYamlComment (line : List Char) : List Char × List Char :=
  splitYamlCommentAux line none false false false false []

/-! ### `Anonymizer.quoteYamlScalarsStartingWithPlaceholder` -/

/-- Per-character state recorded before processing the character:
quote flags and the flow-collection stack (depth and top bracket). -/
structure ScanSt where
  inSingle : Bool
  inDouble : Bool
  flowDepth : Nat
  flowTop : Option Char
  deriving DecidableEq, Repr

def scanDflt : ScanSt := ⟨false, false, 0, none⟩

/-- First pass of the quote function: the arrays `inSingleAt`, `inDoubleAt`,
`flowDepthAt`, `flowTopAt`, one record per character. -/
def buildScanAux : List Char → Bool → Bool → Bool → Bool → List Char → List ScanSt
  | [], _, _, _, _, _ => []
  | c :: rest, true, inD, sEsc, dEsc, stack =>
    ⟨true, inD, stack.length, stack.head?⟩ ::
    (if c = singleQuote && !sEsc then
      (if rest.head? = some singleQuote then buildScanAux rest true inD true dEsc stack
       else buildScanAux rest false inD sEsc dEsc stack)
    else if c = singleQuote && sEsc then buildScanAux rest true inD false dEsc stack
    else buildScanAux rest true inD sEsc dEsc stack)
  | c :: rest, false, true, sEsc, dEsc, stack =>
    ⟨false, true, stack.length, stack.head?⟩ ::
    (if dEsc then buildScanAux rest false true sEsc false stack
    else if c = '\\' then buildScanAux rest false true sEsc true stack
    else if c = '"' then buildScanAux rest false false sEsc dEsc stack
    else buildScanAux rest false true sEsc dEsc stack)
  | c :: rest, false, false, sEsc, dEsc, stack =>
    ⟨false, false, stack.length, stack.head?⟩ ::
    (if c = singleQuote then buildScanAux rest true false false dEsc stack
    else if c = '"' then buildScanAux rest false true sEsc false stack
    else if c = '[' || c = openBrace then buildScanAux rest false false sEsc dEsc (c :: stack)
    else if c = ']' || c = closeBrace then
      (if stack.head? = some (if c = ']' then '[' else openBrace) then
        buildScanAux rest false false sEsc dEsc stack.tail
      else buildScanAux rest false false sEsc dEsc stack)
    else buildScanAux rest false false sEsc dEsc stack)

def buildScan (code : List Char) : List ScanSt :=
  buildScanAux code false false false false []

def stAt (sts : List ScanSt) (i : Nat) : ScanSt := sts.getD i scanDflt

def skipSpacesFrom (code : List Char) (s : Nat) : Nat :=
  s + ((code.drop s).takeWhile isJsSpace).length

/-- `getBlockContentStart`: leading whitespace, an optional list dash
followed by whitespace (or end of line), then whitespace. -/
def getBlockContentStart (code : List Char) : Nat :=
  let idx := skipSpacesFrom code 0
  match code.drop idx with
  | '-' :: rest =>
    if match rest.head? with | none => true | some c => isJsSpace c then
      skipSpacesFrom code (idx + 1)
    else idx
  | _ => idx

/-- `findBlockMappingSeparator`: first unquoted, flow-depth-0 `:` followed
by whitespace or end of line.  `none` models the `-1` result. -/
def findBlockMappingSeparatorAux (code : List Char) (sts : List ScanSt) :
    Nat → Nat → Option Nat
  | 0, _ => none
  | fuel + 1, i =>
    if i < code.length then
      let st := stAt sts i
      if st.inSingle || st.inDouble || st.flowDepth ≠ 0 then
        findBlockMappingSeparatorAux code sts fuel (i + 1)
      else if code.getD i ' ' = ':' &&
          (decide (code.length ≤ i + 1) || isJsSpace (code.getD (i + 1) ' ')) then
        some i
      else findBlockMappingSeparatorAux code sts fuel (i + 1)
    else none

def findBlockMappingSeparator (code : List Char) (sts : List ScanSt)
    (from_ : Nat) : Option Nat :=
  findBlockMappingSeparatorAux code sts (code.length + 1 - from_) from_

/-- `findFlowScalarStart`: walk left from the placeholder to the nearest
same-depth comma, enclosing bracket, or (for flow maps) key colon; the
scalar starts after it, whitespace skipped. -/
def findFlowScalarStartAux (code : List Char) (sts : List ScanSt)
    (depth : Nat) (container : Option Char) : Nat → Nat
  | 0 => 0
  | j + 1 =>
    let st := stAt sts j
    if st.inSingle || st.inDouble then
      findFlowScalarStartAux code sts depth container j
    else
      let ch := code.getD j ' '
      if ch = ',' && st.flowDepth = depth then skipSpacesFrom code (j + 1)
      else if (ch = '[' || ch = openBrace) && st.flowDepth = depth - 1 then
        skipSpacesFrom code (j + 1)
      else if container = some openBrace && ch = ':' && st.flowDepth = depth then
        skipSpacesFrom code (j + 1)
      else findFlowScalarStartAux code sts depth container j

def findFlowScalarStart (code : List Char) (sts : List ScanSt)
    (pos depth : Nat) (container : Option Char) : Nat :=
  findFlowScalarStartAux code sts depth container pos

/-- `findFlowScalarEnd`: walk right to the nearest same-depth comma,
closing bracket, or (for flow maps) colon. -/
def findFlowScalarEndAux (code : List Char) (sts : List ScanSt)
    (depth : Nat) (container : Option Char) : Nat → Nat → Nat
  | 0, _ => code.length
  | fuel + 1, i =>
    if i < code.length then
      let st := stAt sts i
      if st.inSingle || st.inDouble then
        findFlowScalarEndAux code sts depth container fuel (i + 1)
      else
        let ch := code.getD i ' '
        if ch = ',' && st.flowDepth = depth then i
        else if (ch = ']' || ch = closeBrace) && st.flowDepth = depth then i
        else if container = some openBrace && ch = ':' && st.flowDepth = depth then i
        else findFlowScalarEndAux code sts depth container fuel (i + 1)
    else code.length

def findFlowScalarEnd (code : List Char) (sts : List ScanSt)
    (posAfter depth : Nat) (container : Option Char) : Nat :=
  findFlowScalarEndAux code sts depth container (code.length + 1 - posAfter) posAfter

/-- The `while (trimEnd > scalarStart && /\s/.test(code[trimEnd - 1]))`
loop. -/
def trimEndFrom (code : List Char) (lo : Nat) : Nat → Nat
  | 0 => 0
  | e + 1 => if lo < e + 1 && isJsSpace (code.getD e 'x') then trimEndFrom code lo e
             else e + 1

/-- Skip already-quoted scalars, trim trailing whitespace, and emit the
quoting range. -/
def finishRange (code : List Char) (scalarStart scalarEnd : Nat) :
    Option (Nat × Nat) :=
  if scalarStart < code.length &&
      (code.getD scalarStart 'x' = '"' || code.getD scalarStart 'x' = singleQuote) then
    none
  else some (scalarStart, trimEndFrom code scalarStart scalarEnd)

/-- The per-occurrence body of the quote pass: decide whether the
placeholder occurrence at `[occ.1, occ.2)` sits at the start of its
enclosing scalar, and if so compute the range to quote. -/
def rangeForOcc (code : List Char) (sts : List ScanSt) (occ : Nat × Nat) :
    Option (Nat × Nat) :=
  if occ.1 < code.length then
    let st := stAt sts occ.1
    if st.inSingle || st.inDouble then none
    else
      let depth := st.flowDepth
      let container := st.flowTop
      if 0 < depth then
        let scalarStart := findFlowScalarStart code sts occ.1 depth container
        if scalarStart ≠ occ.1 then none
        else finishRange code scalarStart
          (findFlowScalarEnd code sts occ.2 depth container)
      else
        let contentStart := getBlockContentStart code
        match findBlockMappingSeparator code sts contentStart with
        | some colonIndex =>
          if colonIndex < occ.1 then
            let scalarStart := skipSpacesFrom code (colonIndex + 1)
            if scalarStart ≠ occ.1 then none
            else finishRange code scalarStart code.length
          else
            if contentStart ≠ occ.1 then none
            else finishRange code contentStart colonIndex
        | none =>
          if contentStart ≠ occ.1 then none
          else finishRange code contentStart code.length
  else none

/-- `quoteYamlString`: wrap in double quotes, escaping `\` and `"`. -/
def quoteYamlString (value : List Char) : List Char :=
  '"' :: (value.map (fun c =>
    if c = '\\' then ['\\', '\\'] else if c = '"' then ['\\', '"'] else [c])).flatten
    ++ ['"']

/-- The `Map`-keyed range de-duplication (first occurrence kept, order of
first insertion preserved). -/
def dedupeKeepFirstAux : Nat → List (Nat × Nat) → List (Nat × Nat)
  | 0, l => l
  | _, [] => []
  | fuel + 1, r :: t => r :: dedupeKeepFirstAux fuel (t.filter (· ≠ r))

def dedupeKeepFirst (l : List (Nat × Nat)) : List (Nat × Nat) :=
  dedupeKeepFirstAux l.length l

/-- Apply the quoting edits right-to-left by start offset. -/
def applyQuoteRanges (code : List Char) (rs : List (Nat × Nat)) : List Char :=
  rs.foldl (fun updated r =>
    updated.take r.1 ++ quoteYamlString ((updated.drop r.1).take (r.2 - r.1)) ++
      updated.drop r.2) code

def quoteYamlScalarsStartingWithPlaceholder (code : List Char) : List Char :=
  if !containsPlaceholderB code then code
  else
    let sts := buildScan code
    let ranges := (findPlaceholderOccs code).filterMap (rangeForOcc code sts)
    if ranges.isEmpty then code
    else applyQuoteRanges code
      (List.insertionSort (fun a b : Nat × Nat => b.1 ≤ a.1) (dedupeKeepFirst ranges))

/-! ### `Anonymizer.postProcessYaml` -/

def countLeadIndent (line : List Char) : Nat := (line.takeWhile isJsSpace).length

/-- Recognizer for the common tail `\s*[|>][0-9+-]*\s*(?:#.*)?$` of both
block-scalar-header regular expressions. -/
def matchTailAfterMark (l : List Char) : Bool :=
  match l.dropWhile isJsSpace with
  | b :: r =>
    (b = '|' || b = '>') &&
    (let r2 := (r.dropWhile (fun c => isAsciiDigit c || c = '+' || c = '-')).dropWhile
        isJsSpace
     r2.isEmpty || r2.head? = some '#')
  | [] => false

/-- Recognizer for `[^#]*:` followed by the block-scalar tail. -/
def matchBody : List Char → Bool
  | [] => false
  | c :: r => (c = ':' && matchTailAfterMark r) || (c ≠ '#' && matchBody r)

/-- `(?:-\s+)?` followed by `[^#]*:` and the tail (the part of the
block-header regex after the captured indent). -/
def tryAfterIndent (l : List Char) : Bool :=
  (match l with
   | '-' :: c :: r => isJsSpace c && matchBody r
   | _ => false) ||
  matchBody l

/-- `/^(?<indent>\s*)(?:-\s+)?[^#]*:\s*[|>][0-9+-]*\s*(?:#.*)?$/` with the
captured indent length; the greedy `\s*` takes the longest workable
whitespace prefix. -/
def matchBlockHeaderAux (line : List Char) : Nat → Option Nat
  | 0 => if tryAfterIndent line then some 0 else none
  | k + 1 =>
    if tryAfterIndent (line.drop (k + 1)) then some (k + 1)
    else matchBlockHeaderAux line k

def matchBlockHeader (line : List Char) : Option Nat :=
  matchBlockHeaderAux line (countLeadIndent line)

/-- `/^(?<indent>\s*)-\s*[|>][0-9+-]*\s*(?:#.*)?$/`. -/
def matchListBlockHeader (line : List Char) : Option Nat :=
  let k := countLeadIndent line
  match line.drop k with
  | '-' :: r => if matchTailAfterMark r then some k else none
  | _ => none

/-- Per-line normal processing (the part of `postProcessYaml`'s loop after
the in-block-scalar branch): comment pass-through, block-scalar header
detection, comment split and quote pass.  Returns the output line and the
new `(inBlockScalar, blockIndent)` state. -/
def processYamlLine (line : List Char) : List Char × Bool × Nat :=
  if (line.dropWhile isJsSpace).head? = some '#' then (line, false, 0)
  else
    match matchBlockHeader line with
    | some ind => (line, true, ind + 1)
    | none =>
      match matchListBlockHeader line with
      | some ind => (line, true, ind + 1)
      | none =>
        if !containsPlaceholderB line then (line, false, 0)
        else
          let (c, comment) := splitYamlComment line
          (quoteYamlScalarsStartingWithPlaceholder c ++ comment, false, 0)

def postProcessYamlAux : List (List Char) → Bool → Nat → List (List Char)
  | [], _, _ => []
  | line :: rest, true, bi =>
    if jsTrim line = [] then line :: postProcessYamlAux rest true bi
    else if countLeadIndent line < bi then
      let (out, b, bi') := processYamlLine line
      out :: postProcessYamlAux rest b bi'
    else line :: postProcessYamlAux rest true bi
  | line :: rest, false, _ =>
    let (out, b, bi') := processYamlLine line
    out :: postProcessYamlAux rest b bi'

def postProcessYaml (text : List Char) : List Char :=
  List.intercalate ['\n'] (postProcessYamlAux (splitOn '\n' text) false 0)

/-! ### `Anonymizer.anonymize` and `Anonymizer.anonymizeSingleValue` -/

structure AnonymizeResult where
  result : List Char
  newEntries : List MappingEntry
  mapping : SessionMapping
  deriving DecidableEq, Repr

/-- `Anonymizer.anonymize` (the returned `mapping` field is the post-call
state of the mutated `mapping` argument). -/
def anonymize (text : List Char) (ms : List PIIMatch)
    (mapping : SessionMapping) (documentUri : List Char)
    (isYamlFile : Bool) (now : Nat) : AnonymizeResult :=
  let st := anonLoop documentUri now ms ⟨mapping, text, 0, []⟩
  { result := if isYamlFile then postProcessYaml st.result else st.result,
    newEntries := st.newEntries, mapping := st.mapping }

/-- `Anonymizer.anonymizeSingleValue` (the third component is the post-call
mapping state). -/
def anonymizeSingleValue (value : List Char) (t : PIIType)
    (mapping : SessionMapping) (documentUri : List Char) (now : Nat) :
    List Char × Option MappingEntry × SessionMapping :=
  match mapGet mapping.reverseIndex value with
  | some existingPlaceholder => (existingPlaceholder, none, mapping)
  | none =>
    let (placeholder, m') := generatePlaceholder t mapping
    (placeholder,
     some { placeholder := placeholder, original := value, type := tagOf t,
            documentUri := documentUri, createdAt := now }, m')

/-! ### Deanonymization (`applyMappingToFile` in src/commands/fileCommands.ts):
`content.replace(/\[(NAME|…|DOB)_\d{3}\]/g, m => mapping.entries.get(m)?.original ?? m)` -/

def lookupOriginal (m : SessionMapping) (ph : List Char) : List Char :=
  match mapGet m.entries ph with
  | some e => e.original
  | none => ph

def deanonAux (m : SessionMapping) : Nat → List Char → List Char
  | 0, s => s
  | fuel + 1, s =>
    match parsePlaceholderPrefix s with
    | some (ph, rest) => lookupOriginal m ph ++ deanonAux m fuel rest
    | none =>
      match s with
      | [] => []
      | c :: t => c :: deanonAux m fuel t

def deanonymize (m : SessionMapping) (content : List Char) : List Char :=
  deanonAux m content.length content

/-- The caller-side `for (const entry of newEntries)
mapping.entries.set(entry.placeholder, entry)` pattern that records the
anonymizer's new entries in the forward map. -/
def addEntries (m : SessionMapping) (es : List MappingEntry) : SessionMapping :=
  { m with entries := es.foldl (fun acc e => mapSet acc e.placeholder e) m.entries }

/-! ### Detector (src/core/piiDetector.ts)

A compiled regular expression in find-all mode is modelled as an oracle
`RegexO` giving, for a text, the list of `(index, matchedText)` pairs its
`exec` loop produces.  The detector's own logic (pattern order, context
gate, exclusion list, overlap resolution, the secondary YAML name pass and
the final sort) is embedded directly. -/

def RegexO : Type := List Char → List (Nat × List Char)

/-- `PIIPattern`, parametric in the representation of regular
expressions. -/
structure PIIPattern (ρ : Type) where
  type : PIIType
  patterns : List ρ
  enabled : Bool
  priority : Nat
  contextRequired : Bool := false

def DOB_CONTEXT_KEYWORDS : List (List Char) :=
  ["生年月日", "誕生日", "生まれ", "出生日", "DOB", "dob", "birthday",
   "birthdate", "birth_date", "date_of_birth", "dateOfBirth"].map String.data

def NAME_EXCLUSION_WORDS : List (List Char) :=
  ["生年月日", "誕生日", "電話番号", "住所", "氏名", "名前", "担当者",
   "作成日", "更新日", "登録日", "開始日", "終了日", "有効期限",
   "部署名", "所属", "職種", "役職", "確定", "未確定", "仮確定",
   "診断科", "診療科", "放射線", "内科", "外科", "整形外科",
   "小児科", "産婦人科", "皮膚科", "眼科", "耳鼻科", "泌尿器科",
   "精神科", "心療内科", "救急科", "麻酔科", "病理診断",
   "当直", "日付", "時刻", "備考", "連絡先", "緊急連絡",
   "予定", "実績", "状態", "種別", "区分", "分類",
   "マイナンバー", "個人番号", "コメント"].map String.data

/-- `PIIDetector.analyzeDOBContext`: if the first line is a delimited
header containing a birth-date keyword in some column, every line index is
context-eligible. -/
def analyzeDOBContext (text : List Char) : List Nat :=
  let lines := splitOn '\n' text
  match lines with
  | [] => []
  | headerLine :: _ =>
    let isCSV := containsSub headerLine [',']
    let isTSV := containsSub headerLine ['\t']
    if isCSV || isTSV then
      let delimiter := if isCSV then ',' else '\t'
      let headers := splitOn delimiter headerLine
      if headers.any (fun h => DOB_CONTEXT_KEYWORDS.any (fun kw =>
          containsSub (lowerStr (jsTrim h)) (lowerStr kw))) then
        List.range lines.length
      else []
    else []

/-- `PIIDetector.hasDOBContext`. -/
def hasDOBContext (text : List Char) (position : Nat)
    (contextLines : List Nat) : Bool :=
  let lineNumber := (splitOn '\n' (text.take position)).length - 1
  if contextLines.contains lineNumber then true
  else
    let lines := splitOn '\n' text
    if lineNumber < lines.length then
      DOB_CONTEXT_KEYWORDS.any (fun kw =>
        containsSub (lowerStr (lines.getD lineNumber [])) (lowerStr kw))
    else false

/-- `PIIDetector.isExcludedName`: trim, strip one leading and one trailing
quote character, and test membership in the exclusion list. -/
def isExcludedName (value : List Char) : Bool :=
  let t := jsTrim value
  let t1 := match t with
    | c :: rest => if c = '"' || c = '「' || c = '『' then rest else t
    | [] => t
  let normalized := match t1.getLast? with
    | some c => if c = '"' || c = '」' || c = '』' then t1.dropLast else t1
    | none => t1
  NAME_EXCLUSION_WORDS.contains normalized

/-- `PIIDetector.overlapsExisting`. -/
def overlapsExisting (ms : List PIIMatch) (s e : Nat) : Bool :=
  ms.any (fun m => !(decide (e ≤ m.startIndex) || decide (m.endIndex ≤ s)))

/-- One candidate match of the primary pass: context gate, name exclusion,
overlap check, push. -/
def detectStep (needsContextCheck : Bool) (ptype : PIIType) (text : List Char)
    (ctx : List Nat) (acc : List PIIMatch) (cand : Nat × List Char) :
    List PIIMatch :=
  let startIndex := cand.1
  let matchedValue := cand.2
  let endIndex := startIndex + matchedValue.length
  if needsContextCheck && ptype = PIIType.DOB &&
      !hasDOBContext text startIndex ctx then acc
  else if ptype = PIIType.NAME && isExcludedName matchedValue then acc
  else if !overlapsExisting acc startIndex endIndex then
    acc ++ [⟨ptype, matchedValue, startIndex, endIndex⟩]
  else acc

/-- All candidates of one `PIIPattern` (its regexes in order). -/
def detectPattern (text : List Char) (ctx : List Nat)
    (acc : List PIIMatch) (p : PIIPattern RegexO) : List PIIMatch :=
  let needsContextCheck := !p.enabled && p.contextRequired
  p.patterns.foldl (fun acc regex =>
    (regex text).foldl (detectStep needsContextCheck p.type text ctx) acc) acc

/-- `PIIDetector.detectYamlNameFields`, its regex scans abstracted into a
single oracle producing `(valueStart, capturedValue)` pairs (in the source
`valueStart` is `match.index + match[0].indexOf(value)`, which always
points at an occurrence of `value`). -/
def yamlNameStep (existingMatches : List PIIMatch)
    (additional : List PIIMatch) (cand : Nat × List Char) : List PIIMatch :=
  let value := cand.2
  let valueStart := cand.1
  let valueEnd := valueStart + value.length
  if isExcludedName value then additional
  else if !overlapsExisting existingMatches valueStart valueEnd &&
      !overlapsExisting additional valueStart valueEnd then
    additional ++ [⟨PIIType.NAME, value, valueStart, valueEnd⟩]
  else additional

def detectYamlNameFields (yamlOracle : RegexO) (text : List Char)
    (existingMatches : List PIIMatch) : List PIIMatch :=
  (yamlOracle text).foldl (yamlNameStep existingMatches) []

/-- The start-offset order used by `matches.sort((a, b) => a.startIndex -
b.startIndex)`. -/
def matchLE (a b : PIIMatch) : Prop := a.startIndex ≤ b.startIndex

instance : DecidableRel matchLE := fun x y => Nat.decLe x.startIndex y.startIndex

instance : IsTotal PIIMatch matchLE := ⟨fun x y => Nat.le_total x.startIndex y.startIndex⟩

instance : IsTrans PIIMatch matchLE := ⟨fun _ _ _ => Nat.le_trans⟩

/-- `PIIDetector.detect`: context pre-scan, priority-sorted primary pass,
secondary YAML name pass, final stable sort by start offset. -/
def detect (patterns : List (PIIPattern RegexO)) (yamlOracle : RegexO)
    (text : List Char) : List PIIMatch :=
  let dobContextLines := analyzeDOBContext text
  let sortedPatterns := List.insertionSort
    (fun a b : PIIPattern RegexO => a.priority ≤ b.priority)
    (patterns.filter (fun p => p.enabled || p.contextRequired))
  let primary := sortedPatterns.foldl (detectPattern text dobContextLines) []
  let ms := primary ++ detectYamlNameFields yamlOracle text primary
  List.insertionSort matchLE ms

/-- Two half-open ranges `[start, end)` intersect. -/
def Intersects (a b : PIIMatch) : Prop :=
  a.startIndex < b.endIndex ∧ b.startIndex < a.endIndex

instance : DecidableRel Intersects := fun _ _ => instDecidableAnd

/-! ### Pattern Registry (patternRegistry.ts, current revision in
src/unnamed/part_000).  `clonePattern` rebuilds the regex objects from
their sources to give them fresh scan-cursor state; in this pure model it
is the identity. -/

def clonePattern {ρ : Type} (p : PIIPattern ρ) : PIIPattern ρ := p

/-- `PatternRegistry.setEnabled`: `Array.find` locates the first rule of
the category; disabling also clears its context-required flag. -/
def setEnabled {ρ : Type} :
    List (PIIPattern ρ) → PIIType → Bool → List (PIIPattern ρ)
  | [], _, _ => []
  | p :: rest, t, enabled =>
    if p.type = t then
      { p with
        enabled := enabled
        contextRequired :=
          (if !enabled && p.contextRequired then false else p.contextRequired) } :: rest
    else p :: setEnabled rest t enabled

/-- `PatternRegistry.getEnabledPatterns`: enabled or context-required
rules, ascending priority, cloned. -/
def getEnabledPatterns {ρ : Type} (patterns : List (PIIPattern ρ)) :
    List (PIIPattern ρ) :=
  (List.insertionSort (fun a b : PIIPattern ρ => a.priority ≤ b.priority)
    (patterns.filter (fun p => p.enabled || p.contextRequired))).map clonePattern

/-- The shape (categories, pattern counts, enabled flags, priorities,
context flags) of `DEFAULT_PATTERNS` in the current patternRegistry.ts,
with the regex literals abstracted to `rx`. -/
def DEFAULT_PATTERNS (ρ : Type) (rx : ρ) : List (PIIPattern ρ) :=
  [⟨PIIType.PHONE, List.replicate 3 rx, true, 10, false⟩,
   ⟨PIIType.EMAIL, [rx], true, 20, false⟩,
   ⟨PIIType.MYNUMBER, List.replicate 2 rx, true, 30, false⟩,
   ⟨PIIType.DOB, List.replicate 3 rx, false, 40, true⟩,
   ⟨PIIType.ADDRESS, List.replicate 2 rx, true, 50, false⟩,
   ⟨PIIType.NAME, List.replicate 6 rx, true, 100, false⟩]

/-! ### Mapping storage (src/services/mappingStorage.ts,
`MappingStorage.loadMapping` minus the file I/O and JSON decoding). -/

structure StoredMappingEntry where
  placeholder : List Char
  original : List Char
  type : List Char
  sourceFile : List Char
  deriving DecidableEq, Repr

def digitsToNat (ds : List Char) : Nat :=
  ds.foldl (fun acc c => acc * 10 + (c.toNat - '0'.toNat)) 0

/-- One attempt of `/\[([A-Z]+)_(\d+)\]/` at the current position. -/
def parseTagNumAt (s : List Char) : Option (List Char × Nat) :=
  match s with
  | '[' :: rest =>
    let tag := rest.takeWhile isAsciiUpper
    if tag.isEmpty then none
    else
      match rest.drop tag.length with
      | '_' :: rest2 =>
        let ds := rest2.takeWhile isAsciiDigit
        if ds.isEmpty then none
        else
          match rest2.drop ds.length with
          | ']' :: _ => some (tag, digitsToNat ds)
          | _ => none
      | _ => none
  | _ => none

/-- First match of `/\[([A-Z]+)_(\d+)\]/` anywhere in the string
(`String.prototype.match` without the global flag), returning the captured
tag and `parseInt(num, 10)`. -/
def parsePlaceholderTagNumAux : Nat → List Char → Option (List Char × Nat)
  | 0, _ => none
  | fuel + 1, s =>
    match parseTagNumAt s with
    | some r => some r
    | none =>
      match s with
      | [] => none
      | _ :: t => parsePlaceholderTagNumAux fuel t

def parsePlaceholderTagNum (s : List Char) : Option (List Char × Nat) :=
  parsePlaceholderTagNumAux s.length s

/-- `for (const type of Object.values(PIIType)) mapping.counters.set(type, 0)`. -/
def initCounters : List (List Char × Nat) :=
  tagOrder.foldl (fun acc t => mapSet acc (tagOf t) 0) []

/-- The per-entry body of `loadMapping`'s restore loop. -/
def loadStep (now : Nat) (m : SessionMapping) (stored : StoredMappingEntry) :
    SessionMapping :=
  let entry : MappingEntry :=
    ⟨stored.placeholder, stored.original, stored.type, stored.sourceFile, now⟩
  let m := { m with
    entries := mapSet m.entries entry.placeholder entry,
    reverseIndex := mapSet m.reverseIndex entry.original entry.placeholder }
  let m := if stored.type = "NAME".data then
      let normalized := entry.original.filter (fun c => !(isJsSpace c))
      if normalized ≠ entry.original then
        { m with reverseIndex := mapSet m.reverseIndex normalized entry.placeholder }
      else m
    else m
  match parsePlaceholderTagNum stored.placeholder with
  | some (tag, num) =>
    if countersGet m.counters tag < num then
      { m with counters := mapSet m.counters tag num }
    else m
  | none => m

/-- `MappingStorage.loadMapping` on the decoded entry list. -/
def loadMappingEntries (es : List StoredMappingEntry) (now : Nat) :
    SessionMapping :=
  es.foldl (loadStep now) ⟨[], [], initCounters⟩

/-! ### A concrete regex oracle: the first DOB pattern
`/(19|20)\d{2}[\/\-](0?[1-9]|1[0-2])[\/\-]([12]\d|3[01]|0?[1-9])/g`
(current patternRegistry.ts), written out as a scanner with the regex's
alternation order and greediness. -/

def isDigit19 (c : Char) : Bool := '1' ≤ c && c ≤ '9'

def isDateSep (c : Char) : Bool := c = '/' || c = '-'

def parseYear4 (l : List Char) : Option (List Char × List Char) :=
  match l with
  | a :: b :: c :: d :: rest =>
    if ((a = '1' && b = '9') || (a = '2' && b = '0')) &&
        isAsciiDigit c && isAsciiDigit d then
      some ([a, b, c, d], rest)
    else none
  | _ => none

/-- `(0?[1-9]|1[0-2])` immediately followed by `[\/\-]`. -/
def parseMonthSep (l : List Char) : Option (List Char × List Char) :=
  (match l with
   | '0' :: x :: s :: rest =>
     if isDigit19 x && isDateSep s then some (['0', x, s], rest) else none
   | _ => none).orElse (fun _ =>
  (match l with
   | x :: s :: rest =>
     if isDigit19 x && isDateSep s then some ([x, s], rest) else none
   | _ => none).orElse (fun _ =>
  match l with
  | '1' :: x :: s :: rest =>
    if ('0' ≤ x && x ≤ '2') && isDateSep s then some (['1', x, s], rest) else none
  | _ => none))

/-- `([12]\d|3[01]|0?[1-9])` at the end of the pattern. -/
def parseDay (l : List Char) : Option (List Char × List Char) :=
  (match l with
   | x :: y :: rest =>
     if (x = '1' || x = '2') && isAsciiDigit y then some ([x, y], rest) else none
   | _ => none).orElse (fun _ =>
  (match l with
   | '3' :: y :: rest =>
     if y = '0' || y = '1' then some (['3', y], rest) else none
   | _ => none).orElse (fun _ =>
  (match l with
   | '0' :: y :: rest => if isDigit19 y then some (['0', y], rest) else none
   | _ => none).orElse (fun _ =>
  match l with
  | y :: rest => if isDigit19 y then some ([y], rest) else none
  | _ => none)))

def tryDobSlashDate (l : List Char) : Option (List Char × List Char) :=
  match parseYear4 l with
  | some (y, s :: r1) =>
    if isDateSep s then
      match parseMonthSep r1 with
      | some (msep, r2) =>
        match parseDay r2 with
        | some (d, r3) => some (y ++ s :: msep ++ d, r3)
        | none => none
      | none => none
    else none
  | _ => none

def dobSlashScanAux : Nat → List Char → Nat → List (Nat × List Char)
  | 0, _, _ => []
  | fuel + 1, s, i =>
    match tryDobSlashDate s with
    | some (v, rest) => (i, v) :: dobSlashScanAux fuel rest (i + v.length)
    | none =>
      match s with
      | [] => []
      | _ :: t => dobSlashScanAux fuel t (i + 1)

def dobSlashScan : RegexO := fun text => dobSlashScanAux text.length text 0

/-- The oracle of a regex with no matches (also used where the secondary
YAML name pass is not under scrutiny). -/
def noOracle : RegexO := fun _ => []

/-- The DOB pattern rule as configured in the current `DEFAULT_PATTERNS`:
disabled but context-required, priority 40, with the slash/hyphen date
regex. -/
def dobContextPattern : PIIPattern RegexO :=
  ⟨PIIType.DOB, [dobSlashScan], false, 40, true⟩

/-! ## Basic lemmas: maps, prefixes, the placeholder grammar -/

theorem leadsWith_eq {l s : List Char} (h : leadsWith l s = true) :
    s = l ++ s.drop l.length := by
  induction l generalizing s with
  | nil => simp
  | cons a l ih =>
    cases s with
    | nil => simp [leadsWith] at h
    | cons b t =>
      simp only [leadsWith, Bool.and_eq_true, decide_eq_true_eq] at h
      obtain ⟨h1, h2⟩ := h
      subst h1
      simpa using ih h2

theorem leadsWith_append_self (l r : List Char) : leadsWith l (l ++ r) = true := by
  induction l with
  | nil => simp [leadsWith]
  | cons a l ih => simp [leadsWith, ih]

theorem mapGet_mapSet_self {β : Type} (m : List (List Char × β)) (k : List Char)
    (v : β) : mapGet (mapSet m k v) k = some v := by
  induction m with
  | nil => simp [mapSet, mapGet]
  | cons p t ih =>
    obtain ⟨k', v'⟩ := p
    by_cases h : k' = k <;> simp [mapSet, mapGet, h, ih]

theorem mapGet_mapSet_ne {β : Type} (m : List (List Char × β)) {k k' : List Char}
    (v : β) (h : k ≠ k') : mapGet (mapSet m k v) k' = mapGet m k' := by
  induction m with
  | nil => simp [mapSet, mapGet, h]
  | cons p t ih =>
    obtain ⟨k₀, v₀⟩ := p
    by_cases h₀ : k₀ = k <;> by_cases h₁ : k₀ = k' <;>
      simp_all [mapSet, mapGet]

/-- The shape of a well-formed placeholder token. -/
def IsPlaceholder (ph : List Char) : Prop :=
  ∃ t d1 d2 d3, isAsciiDigit d1 = true ∧ isAsciiDigit d2 = true ∧
    isAsciiDigit d3 = true ∧
    ph = '[' :: tagOf t ++ '_' :: d1 :: d2 :: d3 :: [']']

theorem findTag_sound {after : List Char} {t : PIIType}
    (h : findTag after = some t) :
    after = tagOf t ++ after.drop (tagOf t).length := by
  have := List.find?_some h
  exact leadsWith_eq (by simpa using this)

theorem parsePlaceholderPrefix_sound {s ph rest : List Char}
    (h : parsePlaceholderPrefix s = some (ph, rest)) :
    s = ph ++ rest ∧ IsPlaceholder ph := by
  unfold parsePlaceholderPrefix at h
  cases s with
  | nil => simp at h
  | cons c after =>
    by_cases hc : c = '[' <;> simp [hc] at h
    cases hft : findTag after with
    | none => simp [hft] at h
    | some t =>
      simp only [hft] at h
      rcases hdrop : after.drop (tagOf t).length with _ | ⟨c2, _ | ⟨d1, _ | ⟨d2, _ | ⟨d3, _ | ⟨c3, rest'⟩⟩⟩⟩⟩ <;>
        simp [hdrop] at h
      rcases h with ⟨h2, hph, hrest⟩
      have hc2 : c2 = '_' := by tauto
      have hc3 : c3 = ']' := by tauto
      have hd1 : isAsciiDigit d1 = true := by tauto
      have hd2 : isAsciiDigit d2 = true := by tauto
      have hd3 : isAsciiDigit d3 = true := by tauto
      subst hc2; subst hc3; subst hc; subst hrest
      have hafter := findTag_sound hft
      rw [hdrop] at hafter
      constructor
      · rw [← hph, hafter]; simp
      · exact ⟨t, d1, d2, d3, hd1, hd2, hd3, hph.symm⟩

theorem findTag_self (t : PIIType) (r : List Char) :
    findTag (tagOf t ++ r) = some t := by
  cases t <;>
    simp [findTag, tagOrder, tagOf, List.find?, leadsWith, leadsWith_append_self]

theorem parsePlaceholderPrefix_complete {ph : List Char} (h : IsPlaceholder ph)
    (rest : List Char) :
    parsePlaceholderPrefix (ph ++ rest) = some (ph, rest) := by
  obtain ⟨t, d1, d2, d3, hd1, hd2, hd3, hph⟩ := h
  subst hph
  have hshape : ('[' :: tagOf t ++ '_' :: d1 :: d2 :: d3 :: [']']) ++ rest =
      '[' :: (tagOf t ++ '_' :: d1 :: d2 :: d3 :: ']' :: rest) := by simp
  rw [hshape]
  unfold parsePlaceholderPrefix
  simp only [if_pos rfl, findTag_self]
  rw [List.drop_left]
  simp [hd1, hd2, hd3]

theorem isAsciiDigit_ne_lbrack {c : Char} (h : isAsciiDigit c = true) :
    c ≠ '[' := by
  intro hc; subst hc; exact absurd h (by decide)

/-- A placeholder token is a `'['` followed by a nonempty body that
contains no further `'['`. -/
theorem isPlaceholder_shape {ph : List Char} (h : IsPlaceholder ph) :
    ∃ body, ph = '[' :: body ∧ '[' ∉ body ∧ body ≠ [] := by
  obtain ⟨t, d1, d2, d3, hd1, hd2, hd3, hph⟩ := h
  subst hph
  refine ⟨_, rfl, ?_, by simp⟩
  intro hmem
  rcases List.mem_append.mp hmem with hmem | hmem
  · cases t <;> simp [tagOf] at hmem
  · simp only [List.mem_cons] at hmem
    rcases hmem with h | h | h | h | h | h
    · exact absurd h.symm (by decide)
    · exact (isAsciiDigit_ne_lbrack hd1) h.symm
    · exact (isAsciiDigit_ne_lbrack hd2) h.symm
    · exact (isAsciiDigit_ne_lbrack hd3) h.symm
    · exact absurd h.symm (by decide)
    · exact absurd h (List.not_mem_nil _)

theorem isPlaceholder_ne_nil {ph : List Char} (h : IsPlaceholder ph) : ph ≠ [] := by
  obtain ⟨body, hb, _, _⟩ := isPlaceholder_shape h
  simp [hb]

/-! ## Deanonymizer lemmas -/

/-- "`s` contains no placeholder-shaped substring", stated computationally
through the source's own placeholder test. -/
def NoPH (s : List Char) : Prop := containsPlaceholderB s = false

theorem containsPlaceholderB_cons (c : Char) (t : List Char) :
    containsPlaceholderB (c :: t) =
      ((parsePlaceholderPrefix (c :: t)).isSome || containsPlaceholderB t) := rfl

theorem containsPlaceholderB_true_iff {s : List Char} :
    containsPlaceholderB s = true ↔
      ∃ a ph r, s = a ++ ph ++ r ∧ IsPlaceholder ph := by
  constructor
  · intro h
    induction s with
    | nil => simp [containsPlaceholderB] at h
    | cons c t ih =>
      rw [containsPlaceholderB] at h
      rcases Bool.or_eq_true_iff.mp h with h | h
      · obtain ⟨⟨ph, rest⟩, hp⟩ := Option.isSome_iff_exists.mp h
        obtain ⟨hs, hph⟩ := parsePlaceholderPrefix_sound hp
        exact ⟨[], ph, rest, by simpa using hs, hph⟩
      · obtain ⟨a, ph, r, hs, hph⟩ := ih h
        exact ⟨c :: a, ph, r, by simp [hs], hph⟩
  · rintro ⟨a, ph, r, hs, hph⟩
    subst hs
    induction a with
    | nil =>
      simp only [List.nil_append]
      have hpc := parsePlaceholderPrefix_complete hph r
      cases hph' : ph ++ r with
      | nil => exact absurd (List.append_eq_nil.mp hph').1 (isPlaceholder_ne_nil hph)
      | cons c t =>
        rw [hph'] at hpc
        rw [containsPlaceholderB_cons, hpc]
        simp
    | cons c a ih =>
      simp only [List.cons_append]
      rw [containsPlaceholderB_cons, ih]
      simp

theorem noPH_iff {s : List Char} :
    NoPH s ↔ ∀ a ph r, s = a ++ ph ++ r → ¬ IsPlaceholder ph := by
  unfold NoPH
  rw [← Bool.not_eq_true, ← not_iff_not, not_not, containsPlaceholderB_true_iff]
  constructor
  · rintro ⟨a, ph, r, hs, hph⟩ h
    exact h a ph r hs hph
  · intro h
    push_neg at h
    obtain ⟨a, ph, r, hs, hph⟩ := h
    exact ⟨a, ph, r, hs, hph⟩

theorem noPH_middle {s u v w : List Char} (h : NoPH s) (hs : s = u ++ v ++ w) :
    NoPH v := by
  rw [noPH_iff] at h ⊢
  intro a ph r hv hph
  exact h (u ++ a) ph (r ++ w) (by subst hs hv; simp) hph

theorem noPH_parse_none {s : List Char} (h : NoPH s) :
    parsePlaceholderPrefix s = none := by
  cases hp : parsePlaceholderPrefix s with
  | none => rfl
  | some pr =>
    obtain ⟨ph, rest⟩ := pr
    obtain ⟨hs, hph⟩ := parsePlaceholderPrefix_sound hp
    exact absurd hph (noPH_iff.mp h [] ph rest (by simpa using hs))

theorem noPH_cons {c : Char} {t : List Char} (h : NoPH (c :: t)) : NoPH t := by
  unfold NoPH at h ⊢
  rw [containsPlaceholderB_cons] at h
  exact (Bool.or_eq_false_iff.mp h).2

theorem deanonAux_succ (m : SessionMapping) (f : Nat) (s : List Char) :
    deanonAux m (f + 1) s =
      (match parsePlaceholderPrefix s with
       | some (ph, rest) => lookupOriginal m ph ++ deanonAux m f rest
       | none =>
         match s with
         | [] => []
         | c :: t => c :: deanonAux m f t) := rfl

theorem deanonAux_nil (m : SessionMapping) (f : Nat) : deanonAux m f [] = [] := by
  cases f <;> simp [deanonAux, parsePlaceholderPrefix]

/-- The fuel argument of `deanonAux` is irrelevant as long as it dominates
the input length. -/
theorem deanonAux_fuel (m : SessionMapping) :
    ∀ f g (s : List Char), s.length ≤ f → s.length ≤ g →
      deanonAux m f s = deanonAux m g s := by
  intro f
  induction f with
  | zero =>
    intro g s hf _
    have : s = [] := List.length_eq_zero.mp (Nat.le_zero.mp hf)
    subst this
    rw [deanonAux_nil, deanonAux_nil]
  | succ f ih =>
    intro g s hf hg
    cases g with
    | zero =>
      have : s = [] := List.length_eq_zero.mp (Nat.le_zero.mp hg)
      subst this
      rw [deanonAux_nil, deanonAux_nil]
    | succ g =>
      cases hp : parsePlaceholderPrefix s with
      | some pr =>
        obtain ⟨ph, rest⟩ := pr
        obtain ⟨hs, hph⟩ := parsePlaceholderPrefix_sound hp
        have hlen : rest.length ≤ s.length - 1 := by
          have h1 : 1 ≤ ph.length :=
            List.length_pos.mpr (isPlaceholder_ne_nil hph)
          have : s.length = ph.length + rest.length := by simp [hs]
          omega
        rw [deanonAux_succ, deanonAux_succ, hp]
        have := ih g rest (by omega) (by omega)
        simp only [this]
      | none =>
        cases s with
        | nil => rw [deanonAux_nil, deanonAux_nil]
        | cons c t =>
          rw [deanonAux_succ, deanonAux_succ, hp]
          simp only [List.length_cons] at hf hg
          simp only [ih g t (by omega) (by omega)]

theorem deanonymize_nil (m : SessionMapping) : deanonymize m [] = [] := by
  simp [deanonymize, deanonAux_nil]

/-- Scanning a placeholder-free text emits it unchanged. -/
theorem deanonymize_noPH (m : SessionMapping) :
    ∀ s : List Char, NoPH s → deanonymize m s = s := by
  intro s
  induction s with
  | nil => intro _; exact deanonymize_nil m
  | cons c t ih =>
    intro h
    unfold deanonymize
    rw [List.length_cons, deanonAux_succ, noPH_parse_none h]
    have := ih (noPH_cons h)
    unfold deanonymize at this
    simp only [this]

/-- Scanning never matches across the boundary between a placeholder-free
prefix and a tail that is empty or starts with `'['`. -/
theorem parse_append_none {u rest : List Char} (hu : NoPH u) (hne : u ≠ [])
    (hrest : rest = [] ∨ rest.head? = some '[') :
    parsePlaceholderPrefix (u ++ rest) = none := by
  cases hp : parsePlaceholderPrefix (u ++ rest) with
  | none => rfl
  | some pr =>
    exfalso
    obtain ⟨ph, r''⟩ := pr
    obtain ⟨hs, hph⟩ := parsePlaceholderPrefix_sound hp
    by_cases hle : ph.length ≤ u.length
    · -- the whole match would sit inside `u`
      have htake : ph = u.take ph.length := by
        have := congrArg (List.take ph.length) hs
        rw [List.take_append_of_le_length hle] at this
        simpa [List.take_left] using this.symm
      have hu' : u = ph ++ u.drop ph.length := by
        conv_lhs => rw [← List.take_append_drop ph.length u]
        rw [← htake]
      exact noPH_iff.mp hu [] ph (u.drop ph.length) (by simpa using hu') hph
    · -- the match would contain the `'['` that starts `rest`
      push_neg at hle
      rcases hrest with hrest | hrest
      · subst hrest
        rw [List.append_nil] at hs
        have : ph.length ≤ u.length := by
          have := congrArg List.length hs
          simp at this
          omega
        omega
      · obtain ⟨body, hbody, hnot, _⟩ := isPlaceholder_shape hph
        obtain ⟨c0, rest', hr⟩ := List.exists_cons_of_ne_nil
          (show rest ≠ [] from fun h => by simp [h] at hrest)
        have hc0 : c0 = '[' := by
          rw [hr] at hrest; simpa using hrest
        subst hc0; subst hr
        -- `ph` extends past `u` into `rest`, so it contains rest's `'['`
        have hph_take : ph = u ++ ('[' :: rest').take (ph.length - u.length) := by
          have h1 : ph = (ph ++ r'').take ph.length := (List.take_left _ _).symm
          rw [← hs, List.take_append_eq_append_take,
            List.take_of_length_le (by omega)] at h1
          exact h1
        obtain ⟨j, hj⟩ : ∃ j, ph.length - u.length = j + 1 :=
          ⟨ph.length - u.length - 1, by omega⟩
        rw [hj] at hph_take
        obtain ⟨c1, u', hu⟩ := List.exists_cons_of_ne_nil hne
        subst hu
        rw [hbody] at hph_take
        simp only [List.take_cons, List.cons_append, List.cons.injEq] at hph_take
        have : '[' ∈ body := by
          rw [hph_take.2]
          simp
        exact hnot this

/-- Scanning a text that is a placeholder-free prefix followed by `rest`
(empty or starting with `'['`) copies the prefix verbatim. -/
theorem deanonymize_append_noPH (m : SessionMapping) :
    ∀ pre rest : List Char, NoPH pre → (rest = [] ∨ rest.head? = some '[') →
      deanonymize m (pre ++ rest) = pre ++ deanonymize m rest := by
  intro pre
  induction pre with
  | nil => intro rest _ _; simp
  | cons c pre' ih =>
    intro rest h hrest
    have hparse : parsePlaceholderPrefix (c :: (pre' ++ rest)) = none := by
      have := parse_append_none h (show c :: pre' ≠ [] by simp) hrest
      simpa using this
    show deanonAux m ((c :: pre' ++ rest)).length (c :: pre' ++ rest) = _
    rw [show ((c :: pre') ++ rest) = c :: (pre' ++ rest) from rfl,
      List.length_cons, deanonAux_succ, hparse]
    show c :: deanonAux m (pre' ++ rest).length (pre' ++ rest) =
      c :: pre' ++ deanonymize m rest
    have hd : deanonAux m (pre' ++ rest).length (pre' ++ rest) =
        deanonymize m (pre' ++ rest) := rfl
    rw [hd, ih rest (noPH_cons h) hrest]
    simp

/-- Scanning a text that starts with a well-formed placeholder replaces it
by its forward-map lookup (or itself) and continues after it. -/
theorem deanonymize_placeholder_head (m : SessionMapping) {ph : List Char}
    (hph : IsPlaceholder ph) (rest : List Char) :
    deanonymize m (ph ++ rest) = lookupOriginal m ph ++ deanonymize m rest := by
  unfold deanonymize
  have h1 : 1 ≤ ph.length := List.length_pos.mpr (isPlaceholder_ne_nil hph)
  have hlen : (ph ++ rest).length = ph.length + rest.length := by simp
  obtain ⟨k, hk⟩ : ∃ k, (ph ++ rest).length = k + 1 :=
    ⟨(ph ++ rest).length - 1, by omega⟩
  rw [hk, deanonAux_succ, parsePlaceholderPrefix_complete hph rest]
  show lookupOriginal m ph ++ deanonAux m k rest = _
  rw [deanonAux_fuel m k rest.length rest (by omega) (le_refl _)]

/-! ## Claim theorems: C6, C9, C10 -/

/-- C6: deanonymization (`applyMappingToFile`'s text transformation)
replaces every placeholder-grammar occurrence by its forward-mapped
original when present and leaves it unchanged when absent, never failing:
(1) against the empty mapping every text — in particular one containing
`[PHONE_999]` — passes through unchanged; (2) in general, a scan step over
a placeholder-free prefix and a well-formed placeholder token replaces the
token with `entries.get(token)?.original ?? token` and continues. -/
theorem C6_deanonymize_replaces_or_passes_through :
    (∀ s : List Char, deanonymize emptyMapping s = s) ∧
    (∀ (m : SessionMapping) (pre ph post : List Char), NoPH pre →
      IsPlaceholder ph →
      deanonymize m (pre ++ ph ++ post) =
        pre ++ lookupOriginal m ph ++ deanonymize m post) := by
  constructor
  · have key : ∀ n (s : List Char), s.length ≤ n →
        deanonymize emptyMapping s = s := by
      intro n
      induction n with
      | zero =>
        intro s hs
        have : s = [] := List.length_eq_zero.mp (Nat.le_zero.mp hs)
        subst this
        exact deanonymize_nil _
      | succ n ih =>
        intro s hs
        cases hp : parsePlaceholderPrefix s with
        | some pr =>
          obtain ⟨ph, rest⟩ := pr
          obtain ⟨hseq, hph⟩ := parsePlaceholderPrefix_sound hp
          have h1 : 1 ≤ ph.length := List.length_pos.mpr (isPlaceholder_ne_nil hph)
          have hlen : s.length = ph.length + rest.length := by simp [hseq]
          rw [hseq, deanonymize_placeholder_head emptyMapping hph rest]
          have hlk : lookupOriginal emptyMapping ph = ph := by
            simp [lookupOriginal, emptyMapping, mapGet]
          rw [hlk, ih rest (by omega)]
        | none =>
          cases s with
          | nil => exact deanonymize_nil _
          | cons c t =>
            unfold deanonymize
            rw [List.length_cons, deanonAux_succ, hp]
            show c :: deanonAux emptyMapping t.length t = c :: t
            have hd : deanonAux emptyMapping t.length t =
                deanonymize emptyMapping t := rfl
            rw [hd, ih t (by simp only [List.length_cons] at hs; omega)]
    intro s
    exact key s.length s (le_refl _)
  · intro m pre ph post hpre hph
    obtain ⟨body, hb, _, _⟩ := isPlaceholder_shape hph
    have hhead : (ph ++ post).head? = some '[' := by rw [hb]; rfl
    rw [List.append_assoc,
      deanonymize_append_noPH m pre (ph ++ post) hpre (Or.inr hhead),
      deanonymize_placeholder_head m hph post, List.append_assoc]

instance (s : List Char) : Decidable (NoPH s) :=
  inferInstanceAs (Decidable (containsPlaceholderB s = false))

/-- The mapping instance used to witness C6: one forward entry for
`[PHONE_001]`. -/
def c6Map : SessionMapping :=
  ⟨[(['[', 'P', 'H', 'O', 'N', 'E', '_', '0', '0', '1', ']'],
     ⟨['[', 'P', 'H', 'O', 'N', 'E', '_', '0', '0', '1', ']'],
      "03-1234-5678".data, ['P', 'H', 'O', 'N', 'E'], "doc".data, 0⟩)], [], []⟩

/-- C6 witness: concrete instances of both parts of the theorem. -/
theorem C6_deanonymize_witness :
    NoPH "電話番号: ".data ∧
    IsPlaceholder ['[', 'P', 'H', 'O', 'N', 'E', '_', '0', '0', '1', ']'] ∧
    deanonymize c6Map ("電話番号: ".data ++
        ['[', 'P', 'H', 'O', 'N', 'E', '_', '0', '0', '1', ']'] ++ "です".data) =
      "電話番号: ".data ++
        lookupOriginal c6Map ['[', 'P', 'H', 'O', 'N', 'E', '_', '0', '0', '1', ']'] ++
        deanonymize c6Map "です".data ∧
    deanonymize emptyMapping "れんらく: [PHONE_999]".data =
      "れんらく: [PHONE_999]".data :=
  ⟨by decide, ⟨PIIType.PHONE, '0', '0', '1', rfl, rfl, rfl, rfl⟩,
   C6_deanonymize_replaces_or_passes_through.2 c6Map _ _ _ (by decide)
     ⟨PIIType.PHONE, '0', '0', '1', rfl, rfl, rfl, rfl⟩,
   C6_deanonymize_replaces_or_passes_through.1 _⟩

theorem anonMapStep_entries (uri : List Char) (now : Nat) (m : SessionMapping)
    (es : List MappingEntry) (mt : PIIMatch) :
    (anonMapStep uri now m es mt).2.1.entries = m.entries := by
  cases hl : (mapGet m.reverseIndex mt.value).orElse
      (fun _ => mapGet m.reverseIndex (normalizeNameForLookup mt.value mt.type)) with
  | some p => simp [anonMapStep, hl]
  | none => simp [anonMapStep, generatePlaceholder, hl]

theorem anonLoop_entries (uri : List Char) (now : Nat) :
    ∀ (ms : List PIIMatch) (st : AnonState),
      (anonLoop uri now ms st).mapping.entries = st.mapping.entries := by
  intro ms
  induction ms with
  | nil => intro st; rfl
  | cons mt ms ih =>
    intro st
    show (anonLoop uri now ms (anonStep uri now st mt)).mapping.entries = _
    rw [ih]
    exact anonMapStep_entries uri now st.mapping st.newEntries mt

/-- C10: `anonymize` never inserts into the session mapping's forward map
— the post-call mapping state has exactly the entries it started with (it
mutates only the reverse index and the counters); the new forward-map
entries exist only in the returned `newEntries` list. -/
theorem C10_anonymize_never_touches_forward_map (text : List Char)
    (ms : List PIIMatch) (mapping : SessionMapping) (uri : List Char)
    (isYaml : Bool) (now : Nat) :
    (anonymize text ms mapping uri isYaml now).mapping.entries =
      mapping.entries := by
  show (anonLoop uri now ms ⟨mapping, text, 0, []⟩).mapping.entries =
    mapping.entries
  exact anonLoop_entries uri now ms ⟨mapping, text, 0, []⟩

/-- C9 counterexample: the claim asserts that `anonymizeSingleValue`
registers a freshly minted placeholder in the reverse index so that an
immediately following call with the same value reuses it.  On the code, a
second call with the same value mints a new placeholder ([NAME_002] after
[NAME_001]) and returns a second entry, and the reverse index stays
empty. -/
theorem C9_anonymizeSingleValue_counterexample :
    (anonymizeSingleValue "山田太郎".data PIIType.NAME emptyMapping "doc".data 0).1 =
      "[NAME_001]".data ∧
    (anonymizeSingleValue "山田太郎".data PIIType.NAME
        (anonymizeSingleValue "山田太郎".data PIIType.NAME emptyMapping
          "doc".data 0).2.2 "doc".data 0).1 = "[NAME_002]".data ∧
    (anonymizeSingleValue "山田太郎".data PIIType.NAME
        (anonymizeSingleValue "山田太郎".data PIIType.NAME emptyMapping
          "doc".data 0).2.2 "doc".data 0).2.1 ≠ none ∧
    (anonymizeSingleValue "山田太郎".data PIIType.NAME emptyMapping
        "doc".data 0).2.2.reverseIndex = [] := by decide

/-- C9 amended: `anonymizeSingleValue` reuses an existing placeholder for
an already-mapped value (raw-key lookup only) with no new entry, and for
an unmapped value increments the category counter and returns a fresh
placeholder plus a new Mapping Entry — but it does not register the
placeholder in the reverse index, so reuse across calls requires the
caller to record the returned entry. -/
theorem C9_anonymizeSingleValue_amended (value : List Char) (t : PIIType)
    (m : SessionMapping) (uri : List Char) (now : Nat) :
    (∀ p, mapGet m.reverseIndex value = some p →
      anonymizeSingleValue value t m uri now = (p, none, m)) ∧
    (mapGet m.reverseIndex value = none →
      anonymizeSingleValue value t m uri now =
        (placeholderString t (countersGet m.counters (tagOf t) + 1),
         some ⟨placeholderString t (countersGet m.counters (tagOf t) + 1),
               value, tagOf t, uri, now⟩,
         { m with counters :=
             (mapSet m.counters (tagOf t) (countersGet m.counters (tagOf t) + 1)) }) ∧
      (anonymizeSingleValue value t m uri now).2.2.reverseIndex =
        m.reverseIndex) := by
  constructor
  · intro p hp
    unfold anonymizeSingleValue
    rw [hp]
  · intro hp
    unfold anonymizeSingleValue generatePlaceholder
    rw [hp]
    exact ⟨rfl, rfl⟩

/-- C9 witness: both branches of the amended theorem at concrete inputs. -/
theorem C9_anonymizeSingleValue_amended_witness :
    (anonymizeSingleValue "佐藤花子".data PIIType.NAME
        ⟨[], [("佐藤花子".data, "[NAME_004]".data)], []⟩ "doc".data 7) =
      ("[NAME_004]".data, none, ⟨[], [("佐藤花子".data, "[NAME_004]".data)], []⟩) ∧
    (anonymizeSingleValue "佐藤花子".data PIIType.NAME emptyMapping "doc".data 7) =
      (placeholderString PIIType.NAME 1,
       some ⟨placeholderString PIIType.NAME 1, "佐藤花子".data,
             tagOf PIIType.NAME, "doc".data, 7⟩,
       { emptyMapping with counters :=
           (mapSet emptyMapping.counters (tagOf PIIType.NAME) 1) }) :=
  ⟨(C9_anonymizeSingleValue_amended "佐藤花子".data PIIType.NAME
      ⟨[], [("佐藤花子".data, "[NAME_004]".data)], []⟩ "doc".data 7).1
      "[NAME_004]".data (by decide),
   ((C9_anonymizeSingleValue_amended "佐藤花子".data PIIType.NAME
      emptyMapping "doc".data 7).2 (by decide)).1⟩

/-! ## Claim C8: `PatternRegistry.setEnabled` -/

theorem map_clonePattern {ρ : Type} (l : List (PIIPattern ρ)) :
    l.map clonePattern = l := by
  induction l with
  | nil => rfl
  | cons a l ih => simp only [List.map_cons, ih]; rfl

/-- C8: for a registry with at most one rule per category (as in the
built-in default set), `setEnabled(category, false)` disables that
category's rule and clears its context-required flag, so the category is
excluded from `getEnabledPatterns()` — the active set the detector
consumes — and cannot resurface via context-based detection. -/
theorem C8_setEnabled_disables_and_clears_context {ρ : Type}
    (rs : List (PIIPattern ρ)) (t : PIIType)
    (huniq : (rs.filter (fun p => p.type = t)).length ≤ 1) :
    (∀ p ∈ setEnabled rs t false, p.type = t →
      p.enabled = false ∧ p.contextRequired = false) ∧
    (∀ p ∈ getEnabledPatterns (setEnabled rs t false), p.type ≠ t) := by
  have main : ∀ p ∈ setEnabled rs t false, p.type = t →
      p.enabled = false ∧ p.contextRequired = false := by
    induction rs with
    | nil => intro p hp; simp [setEnabled] at hp
    | cons q rest ih =>
      intro p hp hpt
      by_cases hq : q.type = t
      · rw [setEnabled, if_pos hq] at hp
        rcases List.mem_cons.mp hp with hp | hp
        · subst hp
          refine ⟨rfl, ?_⟩
          simp only [Bool.not_false, Bool.true_and]
          cases q.contextRequired <;> rfl
        · -- a second rule of category `t` would contradict uniqueness
          exfalso
          have : 1 + 1 ≤ (List.filter (fun p => decide (p.type = t)) (q :: rest)).length := by
            rw [List.filter_cons, if_pos (by simpa using hq)]
            have : p ∈ List.filter (fun p => decide (p.type = t)) rest :=
              List.mem_filter.mpr ⟨hp, by simpa using hpt⟩
            have := List.length_pos.mpr (List.ne_nil_of_mem this)
            simp only [List.length_cons]
            omega
          omega
      · rw [setEnabled, if_neg hq] at hp
        rcases List.mem_cons.mp hp with hp | hp
        · subst hp; exact absurd hpt hq
        · refine ih ?_ p hp hpt
          have hsub := huniq
          rw [List.filter_cons, if_neg (by simpa using hq)] at hsub
          exact hsub
  refine ⟨main, ?_⟩
  intro p hp hpt
  have hp' : p ∈ (setEnabled rs t false).filter
      (fun p => p.enabled || p.contextRequired) := by
    unfold getEnabledPatterns at hp
    rw [map_clonePattern] at hp
    exact (List.perm_insertionSort
      (fun a b : PIIPattern ρ => a.priority ≤ b.priority) _).mem_iff.mp hp
  obtain ⟨hmem, hflag⟩ := List.mem_filter.mp hp'
  obtain ⟨he, hc⟩ := main p hmem hpt
  rw [he, hc] at hflag
  simp at hflag

/-- C8 witness: the default registry (one rule per category) with the
birth-date category disabled. -/
theorem C8_setEnabled_witness :
    ((DEFAULT_PATTERNS Unit ()).filter
      (fun p => p.type = PIIType.DOB)).length ≤ 1 ∧
    ((∀ p ∈ setEnabled (DEFAULT_PATTERNS Unit ()) PIIType.DOB false,
        p.type = PIIType.DOB → p.enabled = false ∧ p.contextRequired = false) ∧
     (∀ p ∈ getEnabledPatterns
        (setEnabled (DEFAULT_PATTERNS Unit ()) PIIType.DOB false),
        p.type ≠ PIIType.DOB)) :=
  ⟨by decide,
   C8_setEnabled_disables_and_clears_context (DEFAULT_PATTERNS Unit ())
     PIIType.DOB (by decide)⟩

/-! ## Claim C4: counter reconstruction in `loadMapping` -/

theorem countersGet_mapSet_self (cs : List (List Char × Nat)) (k : List Char)
    (v : Nat) : countersGet (mapSet cs k v) k = v := by
  simp [countersGet, mapGet_mapSet_self]

theorem countersGet_mapSet_ne (cs : List (List Char × Nat)) {k k' : List Char}
    (v : Nat) (h : k ≠ k') : countersGet (mapSet cs k v) k' = countersGet cs k' := by
  simp [countersGet, mapGet_mapSet_ne cs v h]

/-- The maximum placeholder number parsed (by `/\[([A-Z]+)_(\d+)\]/`) for a
given category tag over a stored entry list, the code's counter-rebuilding
fold. -/
def maxParsedNum (es : List StoredMappingEntry) (tag : List Char) : Nat :=
  es.foldl (fun acc e =>
    match parsePlaceholderTagNum e.placeholder with
    | some (tg, n) => if tg = tag then max acc n else acc
    | none => acc) 0

theorem loadStep_counters (now : Nat) (m : SessionMapping)
    (e : StoredMappingEntry) (k : List Char) :
    countersGet (loadStep now m e).counters k =
      (match parsePlaceholderTagNum e.placeholder with
       | some (tg, n) => if tg = k then max (countersGet m.counters k) n
         else countersGet m.counters k
       | none => countersGet m.counters k) := by
  unfold loadStep
  cases hp : parsePlaceholderTagNum e.placeholder with
  | none =>
    simp only [hp]
    by_cases hn : e.type = "NAME".data <;>
      by_cases hnorm : e.original.filter (fun c => !(isJsSpace c)) = e.original <;>
      simp [hn, hnorm]
  | some pr =>
    obtain ⟨tg, n⟩ := pr
    simp only [hp]
    by_cases htg : tg = k
    · subst htg
      by_cases hn : e.type = "NAME".data <;>
        by_cases hnorm : e.original.filter (fun c => !(isJsSpace c)) = e.original <;>
        by_cases hlt : countersGet m.counters tg < n <;>
        simp [hn, hnorm, hlt, countersGet_mapSet_self] <;>
        omega
    · by_cases hn : e.type = "NAME".data <;>
        by_cases hnorm : e.original.filter (fun c => !(isJsSpace c)) = e.original <;>
        by_cases hlt : countersGet m.counters tg < n <;>
        simp [hn, hnorm, hlt, htg, countersGet_mapSet_ne _ _ htg]

theorem loadFold_counters (now : Nat) :
    ∀ (es : List StoredMappingEntry) (m : SessionMapping) (k : List Char),
      countersGet (es.foldl (loadStep now) m).counters k =
        es.foldl (fun acc e =>
          match parsePlaceholderTagNum e.placeholder with
          | some (tg, n) => if tg = k then max acc n else acc
          | none => acc) (countersGet m.counters k) := by
  intro es
  induction es with
  | nil => intro m k; rfl
  | cons e es ih =>
    intro m k
    rw [List.foldl_cons, ih, List.foldl_cons, loadStep_counters]

/-- C4: (general part) loading a persisted mapping reconstructs each
category's counter as the maximum placeholder number parsed for that
category among the loaded entries — not the entry count; (scenario part)
after reloading a mapping whose highest name placeholder is `[NAME_007]`
(with only 2 name entries), anonymizing a new distinct name mints
`[NAME_008]`. -/
theorem C4_counters_are_max_across_reload :
    (∀ (es : List StoredMappingEntry) (now : Nat) (t : PIIType),
      countersGet (loadMappingEntries es now).counters (tagOf t) =
        maxParsedNum es (tagOf t)) ∧
    ((anonymize "鈴木花子".data [⟨PIIType.NAME, "鈴木花子".data, 0, 4⟩]
        (loadMappingEntries
          [⟨"[NAME_001]".data, "山田太郎".data, "NAME".data, "f".data⟩,
           ⟨"[NAME_007]".data, "佐藤一".data, "NAME".data, "f".data⟩] 0)
        "d".data false 0).result = "[NAME_008]".data ∧
     (anonymize "鈴木花子".data [⟨PIIType.NAME, "鈴木花子".data, 0, 4⟩]
        (loadMappingEntries
          [⟨"[NAME_001]".data, "山田太郎".data, "NAME".data, "f".data⟩,
           ⟨"[NAME_007]".data, "佐藤一".data, "NAME".data, "f".data⟩] 0)
        "d".data false 0).newEntries.map MappingEntry.placeholder =
       ["[NAME_008]".data]) := by
  constructor
  · intro es now t
    unfold loadMappingEntries maxParsedNum
    rw [loadFold_counters]
    have hinit : countersGet initCounters (tagOf t) = 0 := by
      cases t <;> rfl
    rw [hinit]
  · exact ⟨by decide, by decide⟩

/-! ## Claim C5: structural-quoting examples -/

/-- C5: with structural mode on, the four safe-quoting examples of the
specification hold exactly: a value starting with a placeholder is quoted
whole (trailing parenthetical included); an inline comment stays outside
the quotes; block-scalar body lines are left unquoted; each element of an
inline list starting with a placeholder is quoted individually.  The name
matches are supplied at the value positions the detector reports. -/
theorem C5_structural_quoting_examples :
    (anonymize "担当者: 田中太郎（放射線診断）".data
      [⟨PIIType.NAME, "田中太郎".data, 5, 9⟩] emptyMapping "d".data true 0).result =
      "担当者: \"[NAME_001]（放射線診断）\"".data ∧
    (anonymize "name: 田中太郎 # comment".data
      [⟨PIIType.NAME, "田中太郎".data, 6, 10⟩] emptyMapping "d".data true 0).result =
      "name: \"[NAME_001]\" # comment".data ∧
    (anonymize "notes: |\n  田中太郎（放射線診断）".data
      [⟨PIIType.NAME, "田中太郎".data, 11, 15⟩] emptyMapping "d".data true 0).result =
      "notes: |\n  [NAME_001]（放射線診断）".data ∧
    (anonymize "names: [田中太郎, 鈴木花子]".data
      [⟨PIIType.NAME, "田中太郎".data, 8, 12⟩,
       ⟨PIIType.NAME, "鈴木花子".data, 14, 18⟩] emptyMapping "d".data true 0).result =
      "names: [\"[NAME_001]\", \"[NAME_002]\"]".data := by
  refine ⟨by decide, by decide, by decide, by decide⟩

/-! ## Claim C7: context gating of the birth-date category -/

/-- C7: with the birth-date rule marked context-required and disabled,
`detect` does not emit a DOB match for `1990/01/15` standing alone (no
keyword on the line, no keyword-bearing table header), but does emit it
when the date sits in a row of a comma-delimited table whose header
contains a birth-date keyword, and when the line itself contains such a
keyword. -/
theorem C7_dob_context_gating :
    detect [dobContextPattern] noOracle "1990/01/15".data = [] ∧
    detect [dobContextPattern] noOracle "氏名,生年月日\n山田,1990/01/15".data =
      [⟨PIIType.DOB, "1990/01/15".data, 11, 21⟩] ∧
    detect [dobContextPattern] noOracle "生年月日: 1990/01/15".data =
      [⟨PIIType.DOB, "1990/01/15".data, 6, 16⟩] := by
  refine ⟨by decide, by decide, by decide⟩

/-! ## Claim C2: detector postcondition -/

/-- The non-intersection relation the overlap check enforces. -/
def NonOv (a b : PIIMatch) : Prop := ¬ Intersects a b

theorem nonOv_symm : Symmetric NonOv := by
  intro a b h hi
  exact h ⟨hi.2, hi.1⟩

theorem overlapsExisting_false {acc : List PIIMatch} {s e : Nat}
    (h : overlapsExisting acc s e = false) (tp : PIIType) (v : List Char)
    (_hv : e = s + v.length) :
    ∀ a ∈ acc, NonOv a ⟨tp, v, s, e⟩ := by
  intro a ha hi
  have := List.any_eq_false.mp h a ha
  simp only [Bool.not_eq_true', Bool.not_eq_false] at this
  rcases Bool.or_eq_true_iff.mp this with hle | hle
  · exact absurd hi.1 (by simpa using Nat.not_lt.mpr (of_decide_eq_true hle))
  · exact absurd hi.2 (by simpa using Nat.not_lt.mpr (of_decide_eq_true hle))

theorem pairwise_append_singleton {α : Type} {R : α → α → Prop}
    {l : List α} {m : α} (hl : List.Pairwise R l)
    (hm : ∀ a ∈ l, R a m) : List.Pairwise R (l ++ [m]) := by
  rw [List.pairwise_append]
  exact ⟨hl, List.pairwise_singleton R m, fun a ha b hb => by
    rw [List.mem_singleton.mp hb]; exact hm a ha⟩

theorem detectStep_pairwise {nc : Bool} {tp : PIIType} {text : List Char}
    {ctx : List Nat} {acc : List PIIMatch} {cand : Nat × List Char}
    (h : List.Pairwise NonOv acc) :
    List.Pairwise NonOv (detectStep nc tp text ctx acc cand) := by
  unfold detectStep
  dsimp only
  split
  · exact h
  · split
    · exact h
    · split
      · rename_i hov
        refine pairwise_append_singleton h ?_
        have hov' : overlapsExisting acc cand.1 (cand.1 + cand.2.length) = false := by
          revert hov
          cases overlapsExisting acc cand.1 (cand.1 + cand.2.length) <;> simp
        exact overlapsExisting_false hov' tp cand.2 rfl
      · exact h

theorem foldl_detectStep_pairwise (nc : Bool) (tp : PIIType) (text : List Char)
    (ctx : List Nat) :
    ∀ (cands : List (Nat × List Char)) (acc : List PIIMatch),
      List.Pairwise NonOv acc →
      List.Pairwise NonOv (cands.foldl (detectStep nc tp text ctx) acc) := by
  intro cands
  induction cands with
  | nil => intro acc h; exact h
  | cons c cs ih =>
    intro acc h
    exact ih _ (detectStep_pairwise h)

theorem detectPattern_pairwise (text : List Char) (ctx : List Nat)
    (p : PIIPattern RegexO) :
    ∀ (acc : List PIIMatch), List.Pairwise NonOv acc →
      List.Pairwise NonOv (detectPattern text ctx acc p) := by
  unfold detectPattern
  generalize p.patterns = rxs
  induction rxs with
  | nil => intro acc h; exact h
  | cons rx rxs ih =>
    intro acc h
    exact ih _ (foldl_detectStep_pairwise _ _ text ctx (rx text) acc h)

theorem primary_pairwise (text : List Char) (ctx : List Nat) :
    ∀ (ps : List (PIIPattern RegexO)) (acc : List PIIMatch),
      List.Pairwise NonOv acc →
      List.Pairwise NonOv (ps.foldl (detectPattern text ctx) acc) := by
  intro ps
  induction ps with
  | nil => intro acc h; exact h
  | cons p ps ih =>
    intro acc h
    exact ih _ (detectPattern_pairwise text ctx p acc h)

theorem yamlNameStep_pairwise {existing add : List PIIMatch}
    {cand : Nat × List Char} (h : List.Pairwise NonOv (existing ++ add)) :
    List.Pairwise NonOv (existing ++ yamlNameStep existing add cand) := by
  unfold yamlNameStep
  dsimp only
  split
  · exact h
  · split
    · rename_i hgate
      obtain ⟨h1, h2⟩ := Bool.and_eq_true_iff.mp hgate
      have h1' : overlapsExisting existing cand.1 (cand.1 + cand.2.length) = false := by
        revert h1; cases overlapsExisting existing cand.1 (cand.1 + cand.2.length) <;> simp
      have h2' : overlapsExisting add cand.1 (cand.1 + cand.2.length) = false := by
        revert h2; cases overlapsExisting add cand.1 (cand.1 + cand.2.length) <;> simp
      rw [← List.append_assoc]
      refine pairwise_append_singleton h ?_
      intro a ha
      rcases List.mem_append.mp ha with ha | ha
      · exact overlapsExisting_false h1' PIIType.NAME cand.2 rfl a ha
      · exact overlapsExisting_false h2' PIIType.NAME cand.2 rfl a ha
    · exact h

theorem yaml_pairwise (yamlOracle : RegexO) (text : List Char)
    (existing : List PIIMatch) (hex : List.Pairwise NonOv existing) :
    List.Pairwise NonOv
      (existing ++ detectYamlNameFields yamlOracle text existing) := by
  unfold detectYamlNameFields
  generalize yamlOracle text = cands
  have main : ∀ (cands : List (Nat × List Char)) (add : List PIIMatch),
      List.Pairwise NonOv (existing ++ add) →
      List.Pairwise NonOv
        (existing ++ cands.foldl (yamlNameStep existing) add) := by
    intro cands
    induction cands with
    | nil => intro add h; exact h
    | cons c cs ih =>
      intro add h
      rw [List.foldl_cons]
      exact ih _ (yamlNameStep_pairwise h)
  exact main cands [] (by simpa using hex)

/-- C2: for every pattern set, yaml-key oracle and text, `detect` returns
matches whose start offsets are non-decreasing and whose `[start, end)`
ranges are pairwise non-intersecting (the secondary name-bearing-key pass
included). -/
theorem C2_detect_sorted_and_nonoverlapping
    (patterns : List (PIIPattern RegexO)) (yamlOracle : RegexO)
    (text : List Char) :
    List.Sorted matchLE (detect patterns yamlOracle text) ∧
    List.Pairwise NonOv (detect patterns yamlOracle text) := by
  constructor
  · exact List.sorted_insertionSort matchLE _
  · unfold detect
    refine ((List.perm_insertionSort matchLE _).pairwise_iff
      (fun h => nonOv_symm h)).mpr ?_
    exact yaml_pairwise yamlOracle text _
      (primary_pairwise text (analyzeDOBContext text) _ [] (List.Pairwise.nil))

/-! ## Anonymizer loop structure (shared by C1 and C3) -/

/-- The mapping/entry evolution of the match loop, together with the
placeholder chosen for each match, detached from the text splicing. -/
def assignPH (uri : List Char) (now : Nat) :
    List PIIMatch → SessionMapping → List MappingEntry →
    List (List Char) × SessionMapping × List MappingEntry
  | [], m, es => ([], m, es)
  | mt :: ms, m, es =>
    let r := anonMapStep uri now m es mt
    let rest := assignPH uri now ms r.2.1 r.2.2
    (r.1 :: rest.1, rest.2)

/-- The rewritten text: original-text segments interleaved with the
placeholder chosen for each match. -/
def weave (T : List Char) : Nat → List PIIMatch → List (List Char) → List Char
  | e, [], _ => T.drop e
  | e, _ :: _, [] => T.drop e
  | e, mt :: ms, p :: ps =>
    (T.drop e).take (mt.startIndex - e) ++ p ++
      weave T (mt.startIndex + mt.value.length) ms ps

/-- Sorted-and-in-bounds for a match list relative to position `e`: the
precondition the splicing loop relies on (the detector's postcondition). -/
def chainBoundedB (T : List Char) : Nat → List PIIMatch → Bool
  | _, [] => true
  | e, mt :: ms =>
    decide (e ≤ mt.startIndex) &&
    decide (mt.startIndex + mt.value.length ≤ T.length) &&
    chainBoundedB T (mt.startIndex + mt.value.length) ms

/-- Structure of the match loop: starting from an already-rewritten prefix
`A` and the untouched tail `T.drop e`, the loop produces `A` followed by
the weave of the remaining matches, with mapping and entries evolving by
`assignPH`. -/
theorem anonLoop_weave (uri : List Char) (now : Nat) (T : List Char) :
    ∀ (ms : List PIIMatch) (m : SessionMapping) (es : List MappingEntry)
      (A : List Char) (e : Nat),
      chainBoundedB T e ms = true →
      ∃ off,
        anonLoop uri now ms ⟨m, A ++ T.drop e, ((A.length : Int) - (e : Int)), es⟩ =
          ⟨(assignPH uri now ms m es).2.1,
           A ++ weave T e ms (assignPH uri now ms m es).1,
           off,
           (assignPH uri now ms m es).2.2⟩ := by
  intro ms
  induction ms with
  | nil =>
    intro m es A e _
    exact ⟨(A.length : Int) - (e : Int), rfl⟩
  | cons mt ms ih =>
    intro m es A e hch
    simp only [chainBoundedB, Bool.and_eq_true, decide_eq_true_eq] at hch
    obtain ⟨⟨he1, he2⟩, hch⟩ := hch
    rcases hr : anonMapStep uri now m es mt with ⟨p, m', es'⟩
    have hstep : anonStep uri now ⟨m, A ++ T.drop e, ((A.length : Int) - (e : Int)), es⟩ mt =
        ⟨m', (A ++ (T.drop e).take (mt.startIndex - e) ++ p) ++
               T.drop (mt.startIndex + mt.value.length),
         (((A ++ (T.drop e).take (mt.startIndex - e) ++ p).length : Int) -
           ((mt.startIndex + mt.value.length : Nat) : Int)),
         es'⟩ := by
      unfold anonStep
      dsimp only
      rw [hr]
      dsimp only
      have hadj : (((mt.startIndex : Int) + ((A.length : Int) - (e : Int))).toNat) =
          A.length + (mt.startIndex - e) := by omega
      rw [hadj]
      have htake : (A ++ T.drop e).take (A.length + (mt.startIndex - e)) =
          A ++ (T.drop e).take (mt.startIndex - e) := List.take_append _
      have hdropeq : A.length + (mt.startIndex - e) + mt.value.length =
          A.length + ((mt.startIndex - e) + mt.value.length) := by omega
      have hdrop : (A ++ T.drop e).drop
            (A.length + (mt.startIndex - e) + mt.value.length) =
          T.drop (mt.startIndex + mt.value.length) := by
        rw [hdropeq, List.drop_append, List.drop_drop]
        congr 1
        omega
      rw [htake, hdrop]
      have hseg : ((T.drop e).take (mt.startIndex - e)).length =
          mt.startIndex - e := by
        rw [List.length_take, List.length_drop]
        omega
      simp only [AnonState.mk.injEq]
      refine ⟨trivial, by simp [List.append_assoc], ?_, trivial⟩
      rw [List.length_append, List.length_append, hseg]
      push_cast
      omega
    show ∃ off, anonLoop uri now ms
        (anonStep uri now ⟨m, A ++ T.drop e, ((A.length : Int) - (e : Int)), es⟩ mt) = _
    rw [hstep]
    have hres : (A ++ (T.drop e).take (mt.startIndex - e) ++ p) ++
        T.drop (mt.startIndex + mt.value.length) =
        (A ++ (T.drop e).take (mt.startIndex - e) ++ p) ++
          T.drop (mt.startIndex + mt.value.length) := rfl
    have hAlen : (((A ++ (T.drop e).take (mt.startIndex - e) ++ p).length : Int) -
        ((mt.startIndex + mt.value.length : Nat) : Int)) =
        (((A ++ (T.drop e).take (mt.startIndex - e) ++ p).length : Int) -
          (((mt.startIndex + mt.value.length : Nat) : Nat) : Int)) := by push_cast; ring
    obtain ⟨off, hoff⟩ := ih m' es' (A ++ (T.drop e).take (mt.startIndex - e) ++ p)
      (mt.startIndex + mt.value.length) hch
    refine ⟨off, ?_⟩
    rw [hAlen, hoff]
    have hassign : assignPH uri now (mt :: ms) m es =
        ((anonMapStep uri now m es mt).1 ::
           (assignPH uri now ms (anonMapStep uri now m es mt).2.1
             (anonMapStep uri now m es mt).2.2).1,
         (assignPH uri now ms (anonMapStep uri now m es mt).2.1
             (anonMapStep uri now m es mt).2.2).2) := rfl
    rw [hassign, hr]
    dsimp only
    congr 1
    · show (A ++ (T.drop e).take (mt.startIndex - e) ++ p) ++
          weave T (mt.startIndex + mt.value.length) ms
            (assignPH uri now ms m' es').1 =
        A ++ weave T e (mt :: ms)
          (p :: (assignPH uri now ms m' es').1)
      rw [weave]
      simp [List.append_assoc]

/-! ## `padTo3` characterization (needed for placeholder well-formedness
and distinctness of minted placeholders) -/

theorem toDigitsCore_lt10 (fuel n : Nat) (ds : List Char) (h : n < 10) :
    Nat.toDigitsCore 10 (fuel + 1) n ds = Nat.digitChar n :: ds := by
  unfold Nat.toDigitsCore
  simp [Nat.mod_eq_of_lt h, Nat.div_eq_of_lt h]

theorem toDigitsCore_lt100 (fuel n : Nat) (ds : List Char)
    (h1 : 10 ≤ n) (h2 : n < 100) :
    Nat.toDigitsCore 10 (fuel + 2) n ds =
      Nat.digitChar (n / 10) :: Nat.digitChar (n % 10) :: ds := by
  show Nat.toDigitsCore 10 (fuel + 1 + 1) n ds = _
  unfold Nat.toDigitsCore
  have hd : n / 10 ≠ 0 := by omega
  simp only [hd, if_neg hd]
  exact toDigitsCore_lt10 fuel (n / 10) _ (by omega)

theorem toDigitsCore_lt1000 (fuel n : Nat) (ds : List Char)
    (h1 : 100 ≤ n) (h2 : n < 1000) :
    Nat.toDigitsCore 10 (fuel + 3) n ds =
      Nat.digitChar (n / 100) :: Nat.digitChar ((n / 10) % 10) ::
        Nat.digitChar (n % 10) :: ds := by
  show Nat.toDigitsCore 10 (fuel + 2 + 1) n ds = _
  unfold Nat.toDigitsCore
  have hd : n / 10 ≠ 0 := by omega
  simp only [hd, if_neg hd, if_false]
  rw [toDigitsCore_lt100 fuel (n / 10) _ (by omega) (by omega),
    Nat.div_div_eq_div_mul]

theorem padTo3_shape (n : Nat) (h : n < 1000) :
    padTo3 n = [Nat.digitChar (n / 100), Nat.digitChar ((n / 10) % 10),
      Nat.digitChar (n % 10)] := by
  unfold padTo3 Nat.toDigits
  rcases Nat.lt_or_ge n 10 with h10 | h10
  · obtain ⟨f, hf⟩ : ∃ f, n + 1 = f + 1 := ⟨n, rfl⟩
    rw [hf, toDigitsCore_lt10 f n [] h10]
    have e1 : n / 100 = 0 := by omega
    have e2 : (n / 10) % 10 = 0 := by omega
    have e3 : n % 10 = n := by omega
    rw [e1, e2, e3]
    rfl
  · rcases Nat.lt_or_ge n 100 with h100 | h100
    · obtain ⟨f, hf⟩ : ∃ f, n + 1 = f + 2 := ⟨n - 1, by omega⟩
      rw [hf, toDigitsCore_lt100 f n [] h10 h100]
      have e1 : n / 100 = 0 := by omega
      have e2 : (n / 10) % 10 = n / 10 := by omega
      rw [e1, e2]
      rfl
    · obtain ⟨f, hf⟩ : ∃ f, n + 1 = f + 3 := ⟨n - 2, by omega⟩
      rw [hf, toDigitsCore_lt1000 f n [] h100 h]
      rfl

theorem digitChar_isDigit_all :
    ∀ d, d < 10 → isAsciiDigit (Nat.digitChar d) = true := by decide

theorem digitChar_isDigit {d : Nat} (h : d < 10) :
    isAsciiDigit (Nat.digitChar d) = true := digitChar_isDigit_all d h

theorem digitChar_inj_all :
    ∀ a, a < 10 → ∀ b, b < 10 → Nat.digitChar a = Nat.digitChar b → a = b := by
  decide

theorem digitChar_inj {a b : Nat} (ha : a < 10) (hb : b < 10)
    (h : Nat.digitChar a = Nat.digitChar b) : a = b :=
  digitChar_inj_all a ha b hb h

theorem padTo3_inj {m n : Nat} (hm : m < 1000) (hn : n < 1000)
    (h : padTo3 m = padTo3 n) : m = n := by
  rw [padTo3_shape m hm, padTo3_shape n hn] at h
  simp only [List.cons.injEq, and_true] at h
  obtain ⟨h1, h2, h3⟩ := h
  have e1 := digitChar_inj (by omega) (by omega) h1
  have e2 := digitChar_inj (by omega) (by omega) h2
  have e3 := digitChar_inj (by omega) (by omega) h3
  omega

/-- The placeholder minted for a counter value in `[1, 999]` is
well-formed. -/
theorem placeholderString_isPlaceholder (t : PIIType) {n : Nat}
    (h1 : 1 ≤ n) (h2 : n ≤ 999) : IsPlaceholder (placeholderString t n) := by
  refine ⟨t, Nat.digitChar (n / 100), Nat.digitChar ((n / 10) % 10),
    Nat.digitChar (n % 10), digitChar_isDigit (by omega),
    digitChar_isDigit (by omega), digitChar_isDigit (by omega), ?_⟩
  unfold placeholderString
  rw [padTo3_shape n (by omega)]
  simp

theorem underscore_not_mem_tag (t : PIIType) : '_' ∉ tagOf t := by
  cases t <;> decide

theorem tagOf_inj {t t' : PIIType} (h : tagOf t = tagOf t') : t = t' := by
  cases t <;> cases t' <;> first | rfl | (exfalso; revert h; decide)

theorem append_underscore_inj {l₁ l₂ r₁ r₂ : List Char}
    (h₁ : '_' ∉ l₁) (h₂ : '_' ∉ l₂)
    (h : l₁ ++ '_' :: r₁ = l₂ ++ '_' :: r₂) : l₁ = l₂ ∧ r₁ = r₂ := by
  induction l₁ generalizing l₂ with
  | nil =>
    cases l₂ with
    | nil => simpa using h
    | cons b t =>
      simp only [List.nil_append, List.cons_append, List.cons.injEq] at h
      exact absurd (h.1 ▸ List.mem_cons_self b t) h₂
  | cons a t₁ ih =>
    cases l₂ with
    | nil =>
      simp only [List.cons_append, List.nil_append, List.cons.injEq] at h
      exact absurd (h.1.symm ▸ List.mem_cons_self a t₁) h₁
    | cons b t₂ =>
      simp only [List.cons_append, List.cons.injEq] at h
      obtain ⟨hab, ht⟩ := h
      obtain ⟨he, hr⟩ := ih (fun hm => h₁ (List.mem_cons_of_mem a hm))
        (fun hm => h₂ (hab ▸ List.mem_cons_of_mem b hm)) ht
      exact ⟨by rw [hab, he], hr⟩

/-- Distinctness of minted placeholders: the category tag and the padded
number determine the token. -/
theorem placeholderString_inj {t t' : PIIType} {m n : Nat}
    (hm1 : 1 ≤ m) (hm2 : m ≤ 999) (hn1 : 1 ≤ n) (hn2 : n ≤ 999)
    (h : placeholderString t m = placeholderString t' n) : t = t' ∧ m = n := by
  unfold placeholderString at h
  injection h with _ h
  simp only [List.append_eq, List.append_assoc, List.cons_append] at h
  obtain ⟨htag, hnum⟩ := append_underscore_inj (underscore_not_mem_tag t)
    (underscore_not_mem_tag t') h
  refine ⟨tagOf_inj htag, ?_⟩
  have hml : (padTo3 m).length = 3 := by
    rw [padTo3_shape m (by omega)]; rfl
  have hnl : (padTo3 n).length = 3 := by
    rw [padTo3_shape n (by omega)]; rfl
  have := List.append_inj hnum (by rw [hml, hnl])
  exact padTo3_inj (by omega) (by omega) this.1

/-! ## Mapping-state invariant of the match loop, from an empty session -/

/-- The lookup key of a match (raw value, name-normalized). -/
def normKey (mt : PIIMatch) : List Char :=
  normalizeNameForLookup mt.value mt.type

theorem filter_idem (f : Char → Bool) (l : List Char) :
    (l.filter f).filter f = l.filter f := by
  induction l with
  | nil => rfl
  | cons c t ih =>
    by_cases h : f c <;> simp [List.filter_cons, h, ih]

theorem normalize_ne_imp_name {mt : PIIMatch}
    (h : normalizeNameForLookup mt.value mt.type ≠ mt.value) :
    mt.type = PIIType.NAME := by
  by_cases ht : mt.type = PIIType.NAME
  · exact ht
  · exact absurd (by simp [normalizeNameForLookup, ht]) h

/-- Invariant tying an intermediate mapping state to the entries recorded
so far, for a run that started from the empty session mapping. -/
structure MapInv (ms₀ : List PIIMatch) (m : SessionMapping)
    (es : List MappingEntry) : Prop where
  revSound : ∀ k p, mapGet m.reverseIndex k = some p →
    ∃ e ∈ es, e.placeholder = p ∧
      (k = e.original ∨
        (e.type = tagOf PIIType.NAME ∧
         k = e.original.filter (fun c => !(isJsSpace c)) ∧ k ≠ e.original))
  revComplete : ∀ e ∈ es, mapGet m.reverseIndex e.original = some e.placeholder
  fromMatches : ∀ e ∈ es, ∃ mt ∈ ms₀, e.original = mt.value ∧ e.type = tagOf mt.type
  numbered : ∀ e ∈ es, ∃ t j, e.type = tagOf t ∧ 1 ≤ j ∧
    j ≤ countersGet m.counters (tagOf t) ∧ e.placeholder = placeholderString t j
  counterBound : ∀ t : PIIType, countersGet m.counters (tagOf t) ≤ es.length
  phDistinct : es.Pairwise (fun e₁ e₂ => e₁.placeholder ≠ e₂.placeholder)

theorem mapInv_empty (ms₀ : List PIIMatch) : MapInv ms₀ emptyMapping [] := by
  refine ⟨?_, ?_, ?_, ?_, ?_, ?_⟩
  · intro k p h; simp [emptyMapping, mapGet] at h
  · intro e he; simp at he
  · intro e he; simp at he
  · intro e he; simp at he
  · intro t; simp [emptyMapping, countersGet, mapGet]
  · exact List.Pairwise.nil

/-- `normKey` on the name category and on the others. -/
theorem normKey_name {mt : PIIMatch} (h : mt.type = PIIType.NAME) :
    normKey mt = mt.value.filter (fun c => !(isJsSpace c)) := by
  unfold normKey normalizeNameForLookup
  rw [if_pos h]

theorem normKey_other {mt : PIIMatch} (h : mt.type ≠ PIIType.NAME) :
    normKey mt = mt.value := by
  unfold normKey normalizeNameForLookup
  rw [if_neg h]

/-- The hit analysis: when the reverse-index lookup of a match resolves to
a placeholder, the entry behind it records exactly the match's value
(given the no-normalization-collision hypothesis). -/
theorem lookup_hit_original {ms₀ : List PIIMatch}
    (hnorm : ∀ m₁ ∈ ms₀, ∀ m₂ ∈ ms₀, normKey m₁ = normKey m₂ →
      m₁.value = m₂.value)
    {m : SessionMapping} {es : List MappingEntry} (inv : MapInv ms₀ m es)
    {mt : PIIMatch} (hmt : mt ∈ ms₀) {p : List Char}
    (hhit : mapGet m.reverseIndex mt.value = some p ∨
      (mapGet m.reverseIndex mt.value = none ∧
       mapGet m.reverseIndex (normKey mt) = some p)) :
    ∃ e ∈ es, e.placeholder = p ∧ e.original = mt.value := by
  rcases hhit with hraw | ⟨hraw, hnl⟩
  · obtain ⟨e, he, hep, hk⟩ := inv.revSound mt.value p hraw
    rcases hk with hk | ⟨hty, hkf, hkne⟩
    · exact ⟨e, he, hep, hk.symm⟩
    · exfalso
      obtain ⟨mt', hmt', hor, hety⟩ := inv.fromMatches e he
      have hmt'n : mt'.type = PIIType.NAME := tagOf_inj (by rw [← hety, hty])
      have hkey' : normKey mt' = mt.value := by
        rw [normKey_name hmt'n, ← hor, ← hkf]
      have hkey : normKey mt = mt.value := by
        by_cases hmtn : mt.type = PIIType.NAME
        · rw [normKey_name hmtn, hkf]
          exact filter_idem _ _
        · exact normKey_other hmtn
      have := hnorm mt hmt mt' hmt' (by rw [hkey, hkey'])
      exact hkne (by rw [this, hor])
  · obtain ⟨e, he, hep, hk⟩ := inv.revSound (normKey mt) p hnl
    have hneq : normKey mt ≠ mt.value := by
      intro heq
      rw [heq, hraw] at hnl
      exact Option.noConfusion hnl
    have hmtn : mt.type = PIIType.NAME := by
      by_cases h : mt.type = PIIType.NAME
      · exact h
      · exact absurd (normKey_other h) hneq
    have hnk : normKey mt = mt.value.filter (fun c => !(isJsSpace c)) :=
      normKey_name hmtn
    rcases hk with hk | ⟨hty, hkf, hkne⟩
    · exfalso
      obtain ⟨mt', hmt', hor, hety⟩ := inv.fromMatches e he
      have he2 : e.original = mt.value.filter (fun c => !(isJsSpace c)) := by
        rw [← hk, hnk]
      have hkey' : normKey mt' = normKey mt := by
        by_cases hmt'n : mt'.type = PIIType.NAME
        · rw [normKey_name hmt'n, ← hor, he2, filter_idem, ← hnk]
        · rw [normKey_other hmt'n, ← hor, he2, ← hnk]
      have hval := hnorm mt hmt mt' hmt' hkey'.symm
      apply hneq
      rw [hnk, ← he2, hor, ← hval]
    · obtain ⟨mt', hmt', hor, hety⟩ := inv.fromMatches e he
      have hmt'n : mt'.type = PIIType.NAME := tagOf_inj (by rw [← hety, hty])
      have hkey' : normKey mt' = normKey mt := by
        rw [normKey_name hmt'n, ← hor, ← hkf]
      have hval := hnorm mt hmt mt' hmt' hkey'.symm
      exact ⟨e, he, hep, by rw [hor, ← hval]⟩

/-- What `anonMapStep` returns on a hit. -/
theorem anonMapStep_hit (uri : List Char) (now : Nat) (m : SessionMapping)
    (es : List MappingEntry) (mt : PIIMatch) (p : List Char)
    (h : (mapGet m.reverseIndex mt.value).orElse
      (fun _ => mapGet m.reverseIndex (normalizeNameForLookup mt.value mt.type)) =
      some p) :
    anonMapStep uri now m es mt = (p, m, es) := by
  unfold anonMapStep
  dsimp only
  rw [h]

/-- What `anonMapStep` returns on a miss: mint, register, record. -/
theorem anonMapStep_miss (uri : List Char) (now : Nat) (m : SessionMapping)
    (es : List MappingEntry) (mt : PIIMatch)
    (hraw : mapGet m.reverseIndex mt.value = none)
    (hnl : mapGet m.reverseIndex (normKey mt) = none) :
    anonMapStep uri now m es mt =
      (placeholderString mt.type (countersGet m.counters (tagOf mt.type) + 1),
       ⟨m.entries,
        (if normKey mt ≠ mt.value then
          mapSet (mapSet m.reverseIndex mt.value
            (placeholderString mt.type (countersGet m.counters (tagOf mt.type) + 1)))
            (normKey mt)
            (placeholderString mt.type (countersGet m.counters (tagOf mt.type) + 1))
         else
          mapSet m.reverseIndex mt.value
            (placeholderString mt.type (countersGet m.counters (tagOf mt.type) + 1))),
        mapSet m.counters (tagOf mt.type)
          (countersGet m.counters (tagOf mt.type) + 1)⟩,
       es ++ [⟨placeholderString mt.type (countersGet m.counters (tagOf mt.type) + 1),
              mt.value, tagOf mt.type, uri, now⟩]) := by
  unfold normKey at hnl ⊢
  unfold anonMapStep
  dsimp only
  rw [hraw]
  show (match (Option.orElse none fun _ =>
      mapGet m.reverseIndex (normalizeNameForLookup mt.value mt.type)) with
    | some placeholder => (placeholder, m, es)
    | none => _) = _
  rw [show (Option.orElse none fun _ =>
      mapGet m.reverseIndex (normalizeNameForLookup mt.value mt.type)) =
      mapGet m.reverseIndex (normalizeNameForLookup mt.value mt.type) from rfl, hnl]
  unfold generatePlaceholder
  rfl

/-- One loop step preserves the invariant; the chosen placeholder is
well-formed and recorded with the match's value in the resulting entry
list (which only grows). -/
theorem anonMapStep_inv (uri : List Char) (now : Nat) {ms₀ : List PIIMatch}
    (hnorm : ∀ m₁ ∈ ms₀, ∀ m₂ ∈ ms₀, normKey m₁ = normKey m₂ →
      m₁.value = m₂.value)
    {mt : PIIMatch} (hmt : mt ∈ ms₀) {m : SessionMapping}
    {es : List MappingEntry} (inv : MapInv ms₀ m es) (hlen : es.length ≤ 998) :
    MapInv ms₀ (anonMapStep uri now m es mt).2.1
      (anonMapStep uri now m es mt).2.2 ∧
    (∃ e ∈ (anonMapStep uri now m es mt).2.2,
      e.placeholder = (anonMapStep uri now m es mt).1 ∧
      e.original = mt.value) ∧
    IsPlaceholder (anonMapStep uri now m es mt).1 ∧
    (∃ suffix, (anonMapStep uri now m es mt).2.2 = es ++ suffix) ∧
    (anonMapStep uri now m es mt).2.2.length ≤ es.length + 1 := by
  cases hraw : mapGet m.reverseIndex mt.value with
  | some p =>
    have hres := anonMapStep_hit uri now m es mt p (by rw [hraw]; rfl)
    rw [hres]
    obtain ⟨e, he, hep, heo⟩ := lookup_hit_original hnorm inv hmt (Or.inl hraw)
    obtain ⟨t, j, hty, hj1, hj2, hps⟩ := inv.numbered e he
    have hcb := inv.counterBound t
    refine ⟨inv, ⟨e, he, hep, heo⟩, ?_, ⟨[], by simp⟩, Nat.le_succ _⟩
    rw [← hep, hps]
    exact placeholderString_isPlaceholder t hj1 (by omega)
  | none =>
    cases hnl : mapGet m.reverseIndex (normKey mt) with
    | some p =>
      have hres := anonMapStep_hit uri now m es mt p (by rw [hraw]; exact hnl)
      rw [hres]
      obtain ⟨e, he, hep, heo⟩ :=
        lookup_hit_original hnorm inv hmt (Or.inr ⟨hraw, hnl⟩)
      obtain ⟨t, j, hty, hj1, hj2, hps⟩ := inv.numbered e he
      have hcb := inv.counterBound t
      refine ⟨inv, ⟨e, he, hep, heo⟩, ?_, ⟨[], by simp⟩, Nat.le_succ _⟩
      rw [← hep, hps]
      exact placeholderString_isPlaceholder t hj1 (by omega)
    | none =>
      have hres := anonMapStep_miss uri now m es mt hraw hnl
      rw [hres]
      dsimp only
      have hcb : countersGet m.counters (tagOf mt.type) ≤ es.length :=
        inv.counterBound mt.type
      have hpIs : IsPlaceholder (placeholderString mt.type
          (countersGet m.counters (tagOf mt.type) + 1)) :=
        placeholderString_isPlaceholder mt.type (by omega) (by omega)
      have phNe : ∀ e ∈ es, e.placeholder ≠ placeholderString mt.type
          (countersGet m.counters (tagOf mt.type) + 1) := by
        intro e he heq
        obtain ⟨t, j, hty, hj1, hj2, hps⟩ := inv.numbered e he
        have hcb' := inv.counterBound t
        rw [hps] at heq
        obtain ⟨hteq, hjeq⟩ := placeholderString_inj hj1 (by omega) (by omega)
          (by omega) heq
        subst hteq
        omega
      have hmemNew : (⟨placeholderString mt.type
            (countersGet m.counters (tagOf mt.type) + 1),
          mt.value, tagOf mt.type, uri, now⟩ : MappingEntry) ∈
          es ++ [⟨placeholderString mt.type
            (countersGet m.counters (tagOf mt.type) + 1),
            mt.value, tagOf mt.type, uri, now⟩] :=
        List.mem_append_right _ (List.mem_singleton_self _)
      refine ⟨?_, ⟨_, hmemNew, rfl, rfl⟩, hpIs, ⟨_, rfl⟩, by simp⟩
      by_cases hnr : normKey mt = mt.value
      · have hcond : ¬(normKey mt ≠ mt.value) := fun h => h hnr
        simp only [if_neg hcond]
        refine ⟨?_, ?_, ?_, ?_, ?_, ?_⟩
        · -- revSound
          intro k q hget
          by_cases hak : mt.value = k
          · subst hak
            rw [mapGet_mapSet_self] at hget
            injection hget with hq
            exact ⟨_, hmemNew, hq, Or.inl rfl⟩
          · rw [mapGet_mapSet_ne _ _ hak] at hget
            obtain ⟨e, he, hep, hk⟩ := inv.revSound k q hget
            exact ⟨e, List.mem_append_left _ he, hep, hk⟩
        · -- revComplete
          intro e he'
          rcases List.mem_append.mp he' with he | he
          · have hne1 : mt.value ≠ e.original := by
              intro h
              have := inv.revComplete e he
              rw [← h, hraw] at this
              exact Option.noConfusion this
            rw [mapGet_mapSet_ne _ _ hne1]
            exact inv.revComplete e he
          · rw [List.mem_singleton.mp he]
            exact mapGet_mapSet_self _ _ _
        · -- fromMatches
          intro e he'
          rcases List.mem_append.mp he' with he | he
          · exact inv.fromMatches e he
          · rw [List.mem_singleton.mp he]
            exact ⟨mt, hmt, rfl, rfl⟩
        · -- numbered
          intro e he'
          rcases List.mem_append.mp he' with he | he
          · obtain ⟨t, j, hty, hj1, hj2, hps⟩ := inv.numbered e he
            refine ⟨t, j, hty, hj1, ?_, hps⟩
            by_cases htt : tagOf mt.type = tagOf t
            · rw [← htt, countersGet_mapSet_self]
              rw [← htt] at hj2
              omega
            · rw [countersGet_mapSet_ne _ _ htt]
              exact hj2
          · rw [List.mem_singleton.mp he]
            exact ⟨mt.type, countersGet m.counters (tagOf mt.type) + 1, rfl,
              by omega, by rw [countersGet_mapSet_self], rfl⟩
        · -- counterBound
          intro t
          by_cases htt : tagOf mt.type = tagOf t
          · rw [← htt, countersGet_mapSet_self]
            simp only [List.length_append, List.length_singleton]
            omega
          · rw [countersGet_mapSet_ne _ _ htt]
            have := inv.counterBound t
            simp only [List.length_append, List.length_singleton]
            omega
        · -- phDistinct
          exact pairwise_append_singleton inv.phDistinct phNe
      · simp only [if_pos hnr]
        have hname : mt.type = PIIType.NAME := normalize_ne_imp_name hnr
        refine ⟨?_, ?_, ?_, ?_, ?_, ?_⟩
        · -- revSound
          intro k q hget
          by_cases hnk : normKey mt = k
          · subst hnk
            rw [mapGet_mapSet_self] at hget
            injection hget with hq
            refine ⟨_, hmemNew, hq, Or.inr ⟨?_, ?_, hnr⟩⟩
            · show tagOf mt.type = tagOf PIIType.NAME
              rw [hname]
            · show normKey mt = mt.value.filter (fun c => !(isJsSpace c))
              exact normKey_name hname
          · rw [mapGet_mapSet_ne _ _ hnk] at hget
            by_cases hak : mt.value = k
            · subst hak
              rw [mapGet_mapSet_self] at hget
              injection hget with hq
              exact ⟨_, hmemNew, hq, Or.inl rfl⟩
            · rw [mapGet_mapSet_ne _ _ hak] at hget
              obtain ⟨e, he, hep, hk⟩ := inv.revSound k q hget
              exact ⟨e, List.mem_append_left _ he, hep, hk⟩
        · -- revComplete
          intro e he'
          rcases List.mem_append.mp he' with he | he
          · have hne1 : mt.value ≠ e.original := by
              intro h
              have := inv.revComplete e he
              rw [← h, hraw] at this
              exact Option.noConfusion this
            have hne2 : normKey mt ≠ e.original := by
              intro h
              have := inv.revComplete e he
              rw [← h, hnl] at this
              exact Option.noConfusion this
            rw [mapGet_mapSet_ne _ _ hne2, mapGet_mapSet_ne _ _ hne1]
            exact inv.revComplete e he
          · rw [List.mem_singleton.mp he]
            show mapGet _ mt.value = _
            rw [mapGet_mapSet_ne _ _ hnr, mapGet_mapSet_self]
        · -- fromMatches
          intro e he'
          rcases List.mem_append.mp he' with he | he
          · exact inv.fromMatches e he
          · rw [List.mem_singleton.mp he]
            exact ⟨mt, hmt, rfl, rfl⟩
        · -- numbered
          intro e he'
          rcases List.mem_append.mp he' with he | he
          · obtain ⟨t, j, hty, hj1, hj2, hps⟩ := inv.numbered e he
            refine ⟨t, j, hty, hj1, ?_, hps⟩
            by_cases htt : tagOf mt.type = tagOf t
            · rw [← htt, countersGet_mapSet_self]
              rw [← htt] at hj2
              omega
            · rw [countersGet_mapSet_ne _ _ htt]
              exact hj2
          · rw [List.mem_singleton.mp he]
            exact ⟨mt.type, countersGet m.counters (tagOf mt.type) + 1, rfl,
              by omega, by rw [countersGet_mapSet_self], rfl⟩
        · -- counterBound
          intro t
          by_cases htt : tagOf mt.type = tagOf t
          · rw [← htt, countersGet_mapSet_self]
            simp only [List.length_append, List.length_singleton]
            omega
          · rw [countersGet_mapSet_ne _ _ htt]
            have := inv.counterBound t
            simp only [List.length_append, List.length_singleton]
            omega
        · -- phDistinct
          exact pairwise_append_singleton inv.phDistinct phNe

/-- The whole loop from an invariant state: invariant preserved, entries
only appended, every match paired with a well-formed placeholder recorded
with its value in the final entry list. -/
theorem assignPH_inv (uri : List Char) (now : Nat) {ms₀ : List PIIMatch}
    (hnorm : ∀ m₁ ∈ ms₀, ∀ m₂ ∈ ms₀, normKey m₁ = normKey m₂ →
      m₁.value = m₂.value) :
    ∀ (ms : List PIIMatch) (m : SessionMapping) (es : List MappingEntry),
      (∀ mt ∈ ms, mt ∈ ms₀) → MapInv ms₀ m es →
      es.length + ms.length ≤ 999 →
      MapInv ms₀ (assignPH uri now ms m es).2.1
        (assignPH uri now ms m es).2.2 ∧
      (∃ suffix, (assignPH uri now ms m es).2.2 = es ++ suffix) ∧
      (assignPH uri now ms m es).2.2.length ≤ es.length + ms.length ∧
      List.Forall₂ (fun mt p => IsPlaceholder p ∧
          ∃ e ∈ (assignPH uri now ms m es).2.2,
            e.placeholder = p ∧ e.original = mt.value)
        ms (assignPH uri now ms m es).1 := by
  intro ms
  induction ms with
  | nil =>
    intro m es _ inv _
    exact ⟨inv, ⟨[], by simp [assignPH]⟩, by simp [assignPH], List.Forall₂.nil⟩
  | cons mt ms ih =>
    intro m es hsub inv hbound
    have hmt : mt ∈ ms₀ := hsub mt (List.mem_cons_self _ _)
    simp only [List.length_cons] at hbound
    have hlen : es.length ≤ 998 := by omega
    obtain ⟨inv', hwit, hIs, ⟨suf, hsuf⟩, hlen'⟩ :=
      anonMapStep_inv uri now hnorm hmt inv hlen
    have hassign : assignPH uri now (mt :: ms) m es =
        ((anonMapStep uri now m es mt).1 ::
          (assignPH uri now ms (anonMapStep uri now m es mt).2.1
            (anonMapStep uri now m es mt).2.2).1,
         (assignPH uri now ms (anonMapStep uri now m es mt).2.1
            (anonMapStep uri now m es mt).2.2).2) := rfl
    rw [hassign]
    dsimp only [List.length_cons]
    obtain ⟨invF, ⟨suf₂, hsuf₂⟩, hlenF, hforall⟩ :=
      ih (anonMapStep uri now m es mt).2.1 (anonMapStep uri now m es mt).2.2
        (fun mt' h => hsub mt' (List.mem_cons_of_mem _ h)) inv' (by omega)
    refine ⟨invF, ⟨suf ++ suf₂, by rw [hsuf₂, hsuf, List.append_assoc]⟩,
      by omega, ?_⟩
    refine List.Forall₂.cons ⟨hIs, ?_⟩ hforall
    obtain ⟨e, he, hep, heo⟩ := hwit
    exact ⟨e, by rw [hsuf₂]; exact List.mem_append_left _ he, hep, heo⟩

theorem mapGet_entriesFold_not_mem :
    ∀ (es : List MappingEntry) (acc : List (List Char × MappingEntry))
      (k : List Char), (∀ e ∈ es, e.placeholder ≠ k) →
      mapGet (es.foldl (fun a e => mapSet a e.placeholder e) acc) k =
        mapGet acc k := by
  intro es
  induction es with
  | nil => intro acc k _; rfl
  | cons e₀ esr ih =>
    intro acc k hk
    rw [List.foldl_cons, ih _ k (fun e' he' => hk e' (List.mem_cons_of_mem _ he')),
      mapGet_mapSet_ne _ _ (hk e₀ (List.mem_cons_self _ _))]

/-- With pairwise-distinct placeholders, the forward map built by
`addEntries` resolves each entry's placeholder to that entry. -/
theorem mapGet_entriesFold_of_mem :
    ∀ (es : List MappingEntry) (acc : List (List Char × MappingEntry))
      {e : MappingEntry}, e ∈ es →
      es.Pairwise (fun a b => a.placeholder ≠ b.placeholder) →
      mapGet (es.foldl (fun a x => mapSet a x.placeholder x) acc)
        e.placeholder = some e := by
  intro es
  induction es with
  | nil => intro acc e he; simp at he
  | cons e₀ esr ih =>
    intro acc e he hdist
    obtain ⟨hd, htl⟩ := List.pairwise_cons.mp hdist
    rcases List.mem_cons.mp he with he | he
    · subst he
      rw [List.foldl_cons,
        mapGet_entriesFold_not_mem esr _ e.placeholder
          (fun e' he' => (hd e' he').symm),
        mapGet_mapSet_self]
    · rw [List.foldl_cons]
      exact ih _ he htl

/-- Scanning the weave restores the original tail of the text, when every
placeholder resolves through the forward map to the value it replaced. -/
theorem deanonymize_weave (M : SessionMapping) (T : List Char) (hT : NoPH T) :
    ∀ (ms : List PIIMatch) (ps : List (List Char)) (e : Nat),
      chainBoundedB T e ms = true →
      (∀ mt ∈ ms, (T.drop mt.startIndex).take mt.value.length = mt.value) →
      List.Forall₂ (fun mt p => IsPlaceholder p ∧
        lookupOriginal M p = mt.value) ms ps →
      deanonymize M (weave T e ms ps) = T.drop e := by
  intro ms
  induction ms with
  | nil =>
    intro ps e _ _ hf
    cases hf
    rw [show weave T e [] [] = T.drop e from rfl]
    exact deanonymize_noPH M _
      (@noPH_middle T (T.take e) (T.drop e) [] hT (by simp))
  | cons mt ms ih =>
    intro ps e hch hsl hf
    cases hf with
    | cons hhead htail =>
      rename_i p ps'
      obtain ⟨hIs, hlk⟩ := hhead
      simp only [chainBoundedB, Bool.and_eq_true, decide_eq_true_eq] at hch
      obtain ⟨⟨he1, he2⟩, hch⟩ := hch
      rw [show weave T e (mt :: ms) (p :: ps') =
        (T.drop e).take (mt.startIndex - e) ++ p ++
          weave T (mt.startIndex + mt.value.length) ms ps' from rfl]
      have hdropNoPH : NoPH (T.drop e) :=
        @noPH_middle T (T.take e) (T.drop e) [] hT (by simp)
      have hsegNoPH : NoPH ((T.drop e).take (mt.startIndex - e)) :=
        noPH_middle hdropNoPH (by
          rw [List.nil_append, List.take_append_drop])
      obtain ⟨body, hb, _, _⟩ := isPlaceholder_shape hIs
      have hhd : (p ++ weave T (mt.startIndex + mt.value.length) ms ps').head? =
          some '[' := by rw [hb]; rfl
      rw [List.append_assoc,
        deanonymize_append_noPH M _ _ hsegNoPH (Or.inr hhd),
        deanonymize_placeholder_head M hIs, hlk,
        ih ps' (mt.startIndex + mt.value.length) hch
          (fun mt' h => hsl mt' (List.mem_cons_of_mem _ h)) htail]
      -- reassemble the original tail
      have hv := hsl mt (List.mem_cons_self _ _)
      conv_rhs => rw [← List.take_append_drop (mt.startIndex - e) (T.drop e)]
      rw [List.drop_drop]
      have h1 : e + (mt.startIndex - e) = mt.startIndex := by omega
      rw [h1]
      conv_rhs =>
        rw [← List.take_append_drop mt.value.length (T.drop mt.startIndex)]
      rw [List.drop_drop, hv]

/-! ## Claim C1 -/

/-- C1 counterexample: the claim as stated fails on the code because the
name-normalization alias maps a whitespace variant of an already-seen name
to the first-seen spelling — `山田 太郎` and `山田太郎` share `[NAME_001]`,
so restoring yields the first spelling at both places. -/
theorem C1_roundtrip_counterexample :
    chainBoundedB "山田 太郎と山田太郎".data 0
      [⟨PIIType.NAME, "山田 太郎".data, 0, 5⟩,
       ⟨PIIType.NAME, "山田太郎".data, 6, 10⟩] = true ∧
    (∀ mt ∈ [(⟨PIIType.NAME, "山田 太郎".data, 0, 5⟩ : PIIMatch),
       ⟨PIIType.NAME, "山田太郎".data, 6, 10⟩],
      ("山田 太郎と山田太郎".data.drop mt.startIndex).take mt.value.length =
        mt.value) ∧
    deanonymize
      (addEntries emptyMapping
        (anonymize "山田 太郎と山田太郎".data
          [⟨PIIType.NAME, "山田 太郎".data, 0, 5⟩,
           ⟨PIIType.NAME, "山田太郎".data, 6, 10⟩]
          emptyMapping "d".data false 0).newEntries)
      (anonymize "山田 太郎と山田太郎".data
        [⟨PIIType.NAME, "山田 太郎".data, 0, 5⟩,
         ⟨PIIType.NAME, "山田太郎".data, 6, 10⟩]
        emptyMapping "d".data false 0).result ≠
      "山田 太郎と山田太郎".data := by decide

/-- C1 amended: starting a pseudonymization run from the empty session
mapping, anonymizing the detected matches (sorted, in-bounds, values at
their reported offsets) and then deanonymizing against the mapping with
the new entries added reproduces the text exactly, for arbitrary mixes of
the six categories — provided the text contains no placeholder-shaped
substring, no two distinct detected values collide under the name
normalization, and at most 999 matches occur (a 1000th distinct value
would mint `[NAME_1000]`, which the three-digit placeholder grammar of the
deanonymizer does not recognize). -/
theorem C1_roundtrip_amended (T : List Char) (ms : List PIIMatch)
    (uri : List Char) (now : Nat)
    (hch : chainBoundedB T 0 ms = true)
    (hsl : ∀ mt ∈ ms, (T.drop mt.startIndex).take mt.value.length = mt.value)
    (hT : NoPH T)
    (hnorm : ∀ m₁ ∈ ms, ∀ m₂ ∈ ms, normKey m₁ = normKey m₂ →
      m₁.value = m₂.value)
    (hcount : ms.length ≤ 999) :
    deanonymize
      (addEntries emptyMapping
        (anonymize T ms emptyMapping uri false now).newEntries)
      (anonymize T ms emptyMapping uri false now).result = T := by
  obtain ⟨off, hloop⟩ := anonLoop_weave uri now T ms emptyMapping [] [] 0 hch
  have hstate : (⟨emptyMapping, ([] : List Char) ++ T.drop 0,
      ((([] : List Char).length : Int) - ((0 : Nat) : Int)),
      ([] : List MappingEntry)⟩ : AnonState) =
      ⟨emptyMapping, T, 0, []⟩ := by
    simp [AnonState.mk.injEq]
  rw [hstate] at hloop
  obtain ⟨invF, _, _, hforall⟩ :=
    assignPH_inv uri now hnorm ms emptyMapping [] (fun _ h => h)
      (mapInv_empty ms) (by simpa using hcount)
  show deanonymize
      (addEntries emptyMapping
        (anonLoop uri now ms ⟨emptyMapping, T, 0, []⟩).newEntries)
      (anonLoop uri now ms ⟨emptyMapping, T, 0, []⟩).result = T
  rw [hloop]
  dsimp only
  rw [List.nil_append]
  have hflk : List.Forall₂ (fun mt p => IsPlaceholder p ∧
      lookupOriginal (addEntries emptyMapping
        (assignPH uri now ms emptyMapping []).2.2) p = mt.value)
      ms (assignPH uri now ms emptyMapping []).1 := by
    refine List.Forall₂.imp ?_ hforall
    rintro mt p ⟨hIs, e, he, hep, heo⟩
    refine ⟨hIs, ?_⟩
    unfold lookupOriginal
    have hg : mapGet (addEntries emptyMapping
        (assignPH uri now ms emptyMapping []).2.2).entries p = some e := by
      show mapGet ((assignPH uri now ms emptyMapping []).2.2.foldl
        (fun a x => mapSet a x.placeholder x) []) p = some e
      rw [← hep]
      exact mapGet_entriesFold_of_mem _ [] he invF.phDistinct
    rw [hg]
    exact heo
  have := deanonymize_weave
    (addEntries emptyMapping (assignPH uri now ms emptyMapping []).2.2)
    T hT ms (assignPH uri now ms emptyMapping []).1 0 hch hsl hflk
  rw [this]
  rfl

theorem C1_roundtrip_amended_witness :
    chainBoundedB "x@y".data 0
      [⟨PIIType.EMAIL, "x@y".data, 0, 3⟩] = true ∧
    (∀ mt ∈ [(⟨PIIType.EMAIL, "x@y".data, 0, 3⟩ : PIIMatch)],
      ("x@y".data.drop mt.startIndex).take mt.value.length = mt.value) ∧
    NoPH "x@y".data ∧
    deanonymize
      (addEntries emptyMapping
        (anonymize "x@y".data [⟨PIIType.EMAIL, "x@y".data, 0, 3⟩]
          emptyMapping "u".data false 7).newEntries)
      (anonymize "x@y".data [⟨PIIType.EMAIL, "x@y".data, 0, 3⟩]
        emptyMapping "u".data false 7).result = "x@y".data :=
  ⟨by decide, by decide, by decide,
   C1_roundtrip_amended "x@y".data [⟨PIIType.EMAIL, "x@y".data, 0, 3⟩]
     "u".data 7 (by decide) (by decide) (by decide) (by decide) (by decide)⟩

/-! ## Claim C3 -/

/-- C3: if the same value `V` under category `C` occurs as two (sorted,
in-bounds) matches within a single `anonymize` call starting from a mapping
in which `V` has no placeholder (neither the raw nor the name-normalized
reverse-index key is bound), both occurrences are replaced by the identical
placeholder and exactly one new mapping entry for `V` is returned. -/
theorem C3_placeholder_stability (T V uri : List Char) (C : PIIType)
    (now : Nat) (m : SessionMapping) (m1 m2 : PIIMatch)
    (h1v : m1.value = V) (h2v : m2.value = V)
    (h1t : m1.type = C) (h2t : m2.type = C)
    (hch : chainBoundedB T 0 [m1, m2] = true)
    (hraw : mapGet m.reverseIndex V = none)
    (hnl : mapGet m.reverseIndex (normalizeNameForLookup V C) = none) :
    ∃ p, (anonymize T [m1, m2] m uri false now).result =
        T.take m1.startIndex ++ p ++
          (T.drop (m1.startIndex + V.length)).take
            (m2.startIndex - (m1.startIndex + V.length)) ++
          p ++ T.drop (m2.startIndex + V.length) ∧
      (anonymize T [m1, m2] m uri false now).newEntries =
        [⟨p, V, tagOf C, uri, now⟩] := by
  refine ⟨placeholderString C (countersGet m.counters (tagOf C) + 1), ?_⟩
  have hraw1 : mapGet m.reverseIndex m1.value = none := by rw [h1v]; exact hraw
  have hnk1 : normKey m1 = normalizeNameForLookup V C := by
    unfold normKey; rw [h1v, h1t]
  have hnl1 : mapGet m.reverseIndex (normKey m1) = none := by
    rw [hnk1]; exact hnl
  have hstep1 := anonMapStep_miss uri now m [] m1 hraw1 hnl1
  rw [h1t] at hstep1
  set p := placeholderString C (countersGet m.counters (tagOf C) + 1) with hp
  set ri₂ := (if normKey m1 ≠ m1.value then
      mapSet (mapSet m.reverseIndex m1.value p) (normKey m1) p
    else mapSet m.reverseIndex m1.value p) with hri
  set m' : SessionMapping :=
    ⟨m.entries, ri₂,
     mapSet m.counters (tagOf C) (countersGet m.counters (tagOf C) + 1)⟩
    with hm'
  have hget2 : mapGet m'.reverseIndex m2.value = some p := by
    show mapGet ri₂ m2.value = some p
    rw [h2v, ← h1v, hri]
    by_cases hne : normKey m1 ≠ m1.value
    · rw [if_pos hne, mapGet_mapSet_ne _ p hne, mapGet_mapSet_self]
    · rw [if_neg hne, mapGet_mapSet_self]
  have hstep2 : anonMapStep uri now m'
      [⟨p, m1.value, tagOf C, uri, now⟩] m2 =
      (p, m', [⟨p, m1.value, tagOf C, uri, now⟩]) := by
    apply anonMapStep_hit
    rw [hget2]; rfl
  have hassign : assignPH uri now [m1, m2] m [] =
      ([p, p], m', [⟨p, m1.value, tagOf C, uri, now⟩]) := by
    simp only [assignPH, hstep1, List.nil_append, hstep2]
  obtain ⟨off, hloop⟩ := anonLoop_weave uri now T [m1, m2] m [] [] 0 hch
  have hstate : (⟨m, ([] : List Char) ++ T.drop 0,
      ((([] : List Char).length : Int) - ((0 : Nat) : Int)),
      ([] : List MappingEntry)⟩ : AnonState) = ⟨m, T, 0, []⟩ := by
    simp [AnonState.mk.injEq]
  rw [hstate, hassign] at hloop
  show ((anonLoop uri now [m1, m2] ⟨m, T, 0, []⟩).result =
      T.take m1.startIndex ++ p ++
        (T.drop (m1.startIndex + V.length)).take
          (m2.startIndex - (m1.startIndex + V.length)) ++
        p ++ T.drop (m2.startIndex + V.length)) ∧
    (anonLoop uri now [m1, m2] ⟨m, T, 0, []⟩).newEntries =
      [⟨p, V, tagOf C, uri, now⟩]
  rw [hloop]
  refine ⟨?_, by rw [h1v]⟩
  show ([] : List Char) ++ weave T 0 [m1, m2] [p, p] = _
  rw [List.nil_append]
  show (T.drop 0).take (m1.startIndex - 0) ++ p ++
      ((T.drop (m1.startIndex + m1.value.length)).take
        (m2.startIndex - (m1.startIndex + m1.value.length)) ++ p ++
        weave T (m2.startIndex + m2.value.length) [] []) = _
  rw [show weave T (m2.startIndex + m2.value.length) [] [] =
    T.drop (m2.startIndex + m2.value.length) from rfl]
  rw [h1v, h2v, List.drop_zero, Nat.sub_zero]
  simp only [List.append_assoc]

theorem C3_placeholder_stability_witness :
    (⟨PIIType.NAME, "佐藤".data, 0, 2⟩ : PIIMatch).value = "佐藤".data ∧
    chainBoundedB "佐藤と佐藤".data 0
      [⟨PIIType.NAME, "佐藤".data, 0, 2⟩,
       ⟨PIIType.NAME, "佐藤".data, 3, 2⟩] = true ∧
    mapGet emptyMapping.reverseIndex "佐藤".data = none ∧
    ∃ p, (anonymize "佐藤と佐藤".data
        [⟨PIIType.NAME, "佐藤".data, 0, 2⟩,
         ⟨PIIType.NAME, "佐藤".data, 3, 2⟩]
        emptyMapping "u".data false 5).result =
        "佐藤と佐藤".data.take 0 ++ p ++
          ("佐藤と佐藤".data.drop (0 + "佐藤".data.length)).take
            (3 - (0 + "佐藤".data.length)) ++
          p ++ "佐藤と佐藤".data.drop (3 + "佐藤".data.length) ∧
      (anonymize "佐藤と佐藤".data
        [⟨PIIType.NAME, "佐藤".data, 0, 2⟩,
         ⟨PIIType.NAME, "佐藤".data, 3, 2⟩]
        emptyMapping "u".data false 5).newEntries =
        [⟨p, "佐藤".data, tagOf PIIType.NAME, "u".data, 5⟩] :=
  ⟨rfl, by decide, rfl,
   C3_placeholder_stability "佐藤と佐藤".data "佐藤".data "u".data
     PIIType.NAME 5 emptyMapping
     ⟨PIIType.NAME, "佐藤".data, 0, 2⟩ ⟨PIIType.NAME, "佐藤".data, 3, 2⟩
     rfl rfl rfl rfl (by decide) rfl rfl⟩

end DataAirlock
